import Mathlib

/-!
Verification development for the rumoca_parol Modelica front end.

The development embeds, in Lean, the data model and the two operations the
repository implements in `src/ir/flatten.rs` and `src/modelica_grammar.rs`:

* the hierarchical intermediate representation (IR) of stored definitions,
  class definitions, components, equations and expressions, translated from
  the spec's data-model section because the `ir::ast` module itself is not
  part of the provided sources;
* the `flatten` function of `src/ir/flatten.rs`, translated statement by
  statement, with the `indexmap::IndexMap` operations (`get`, `contains_key`,
  `insert`, `swap_remove`) modelled over association lists with the
  semantics documented by the indexmap crate;
* the grammar-to-IR lowering functions of `src/modelica_grammar.rs`
  (`Factor`, `Term`, `ArithmeticExpression`, `LogicalTerm`,
  `LogicalExpression`, `Primary`, `Statement` and the component-clause part
  of `ElementList`), with Rust panics (`panic!`, `todo!`, out-of-bounds
  indexing) made explicit as error values of an `Except` type.

Theorems after the definitions settle the behavioural claims about ordering,
error behaviour, default start values, operator associativity and the
flattening algorithm.
-/

namespace Rumoca

/-- Source location carried by every token (spec section 3: file name,
start and end line/column, and byte offsets). -/
structure Location where
  start_line : Nat
  start_column : Nat
  end_line : Nat
  end_column : Nat
  startByte : Nat
  endByte : Nat
  file_name : String
deriving Repr, DecidableEq

/-- The all-zero location, matching Rust's `Location::default()`. -/
def Location.zero : Location :=
  { start_line := 0, start_column := 0, end_line := 0, end_column := 0,
    startByte := 0, endByte := 0, file_name := "" }

/-- A lexeme: text, location, grammar-assigned token number, token type tag
(spec section 3, `ir::ast::Token`). -/
structure Token where
  text : String
  location : Location
  token_number : Nat
  token_type : Nat
deriving Repr, DecidableEq

/-- Rust's `ir::ast::Token::default()`: empty text, zeroed fields. -/
def Token.zero : Token :=
  { text := "", location := Location.zero, token_number := 0, token_type := 0 }

/-- A token that differs from the default only in its text, as built by
`ir::ast::Token { text: ..., ..Default::default() }` in the source. -/
def tokenText (s : String) : Token :=
  { Token.zero with text := s }

/-- Dotted name: an ordered sequence of identifier tokens
(`ir::ast::Name`, spec section 3). -/
structure Name where
  name : List Token
deriving Repr, DecidableEq

/-- Joins the parts of a `List String` with a separator, as Rust's
`Vec::join` does (used for `parts.join("_")` in `flatten`). -/
def joinParts (sep : String) : List String → String
  | [] => ""
  | [p] => p
  | p :: rest => p ++ sep ++ joinParts sep rest

/-- Stringification of a `Name`: identifiers joined with `.`
(spec section 3: "joined with `.` when stringified"). -/
def nameToString (n : Name) : String :=
  joinParts "." (n.name.map Token.text)

/-- Terminal kinds of the expression tree (spec section 3). -/
inductive TerminalType where
  | UnsignedInteger
  | UnsignedReal
  | String
  | Bool
  | End
deriving Repr, DecidableEq

/-- Unary operators (spec section 3): arithmetic sign variants and `not`. -/
inductive OpUnary where
  | Plus (token : Token)
  | Minus (token : Token)
  | DotPlus (token : Token)
  | DotMinus (token : Token)
  | Not (token : Token)
deriving Repr, DecidableEq

/-- Binary operators (spec section 3): arithmetic, relational, logical. -/
inductive OpBinary where
  | Add (token : Token)
  | Sub (token : Token)
  | AddElem (token : Token)
  | SubElem (token : Token)
  | Mul (token : Token)
  | Div (token : Token)
  | MulElem (token : Token)
  | DivElem (token : Token)
  | Exp (token : Token)
  | Eq (token : Token)
  | Gt (token : Token)
  | Lt (token : Token)
  | Ge (token : Token)
  | Le (token : Token)
  | Neq (token : Token)
  | And (token : Token)
  | Or (token : Token)
deriving Repr, DecidableEq

mutual

/-- Expression tree (spec section 3, `ir::ast::Expression`). -/
inductive Expression where
  | Empty
  | Terminal (terminal_type : TerminalType) (token : Token)
  | ComponentReference (comp : ComponentReference)
  | Unary (op : OpUnary) (rhs : Expression)
  | Binary (lhs : Expression) (op : OpBinary) (rhs : Expression)
  | FunctionCall (comp : ComponentReference) (args : List Expression)
  | Range (start : Expression) (step : Option Expression) (stop : Expression)
deriving Repr

/-- Qualified variable reference: leading-dot flag plus ordered parts
(spec section 3, `ir::ast::ComponentReference`). -/
inductive ComponentReference where
  | mk (isLocal : Bool) (parts : List ComponentRefPart)
deriving Repr

/-- One part of a component reference: identifier plus optional subscripts. -/
inductive ComponentRefPart where
  | mk (ident : Token) (subs : Option (List Subscript))
deriving Repr

/-- A subscript: a bare colon (unbounded range) or an expression. -/
inductive Subscript where
  | Range (token : Token)
  | Expr (e : Expression)
deriving Repr

end

mutual

/-- Equation variants (spec section 3, `ir::ast::Equation`). -/
inductive Equation where
  | Simple (lhs rhs : Expression)
  | Connect (lhs rhs : ComponentReference)
  | FunctionCall (comp : ComponentReference) (args : List Expression)
  | If (cond_blocks : List EquationBlock) (else_block : Option (List Equation))
  | When (blocks : List EquationBlock)
deriving Repr

/-- A guarded equation block: condition plus body. -/
inductive EquationBlock where
  | mk (cond : Expression) (eqs : List Equation)
deriving Repr

end

/-- Condition of an equation block. -/
def EquationBlock.cond : EquationBlock → Expression
  | .mk c _ => c

/-- Body of an equation block. -/
def EquationBlock.eqs : EquationBlock → List Equation
  | .mk _ e => e

/-- Statement variants (spec section 3, `ir::ast::Statement`).  The payload
types of `For` are modelled from the spec: the source only ever constructs
`For` with both vectors empty. -/
inductive Statement where
  | Assignment (comp : ComponentReference) (value : Expression)
  | FunctionCall (comp : ComponentReference) (args : List Expression)
  | Break (token : Token)
  | Return (token : Token)
  | For (indices : List String) (equations : List Equation)
deriving Repr

/-- Variability declaration kind of a component (spec section 3). -/
inductive Variability where
  | Empty
  | Constant (token : Token)
  | Discrete (token : Token)
  | Parameter (token : Token)
deriving Repr, DecidableEq

/-- Causality declaration kind of a component (spec section 3). -/
inductive Causality where
  | Empty
  | Input (token : Token)
  | Output (token : Token)
deriving Repr, DecidableEq

/-- Connection declaration kind of a component (spec section 3). -/
inductive Connection where
  | Empty
  | Flow (token : Token)
  | Stream (token : Token)
deriving Repr, DecidableEq

/-- A declared variable (spec section 3, `ir::ast::Component`). -/
structure Component where
  name : String
  type_name : Name
  variability : Variability
  causality : Causality
  connection : Connection
  description : List Token
  start : Expression
deriving Repr

/-- Copy of a component with its `name` replaced, as done by
`scomp.name = name` during sub-component expansion in `flatten`. -/
def Component.setName (c : Component) (n : String) : Component :=
  { c with name := n }

/-- An extends clause record: the base class name (`ir::ast::Extend`). -/
structure Extend where
  comp : Name
deriving Repr, DecidableEq

/-- Association list with insertion-order iteration; the model of
`indexmap::IndexMap<String, A>` used throughout the IR. -/
abbrev IndexMap (α : Type) : Type := List (String × α)

/-- A class definition (spec section 3, `ir::ast::ClassDefinition`).  An
inductive with a single constructor because the `classes` field nests
`ClassDefinition` recursively. -/
inductive ClassDefinition where
  | mk (name : Token) (encapsulated : Bool)
      (classes : List (String × ClassDefinition))
      (components : IndexMap Component)
      (extendsList : List Extend)
      (imports : List String)
      (equations : List Equation)
      (initial_equations : List Equation)
      (algorithms : List (List Statement))
      (initial_algorithms : List (List Statement))
deriving Repr

namespace ClassDefinition

/-- Name token of a class definition. -/
def name : ClassDefinition → Token
  | .mk n _ _ _ _ _ _ _ _ _ => n

/-- Encapsulated flag of a class definition. -/
def encapsulated : ClassDefinition → Bool
  | .mk _ e _ _ _ _ _ _ _ _ => e

/-- Nested classes of a class definition (ordered mapping). -/
def classes : ClassDefinition → IndexMap ClassDefinition
  | .mk _ _ c _ _ _ _ _ _ _ => c

/-- Components of a class definition (ordered mapping). -/
def components : ClassDefinition → IndexMap Component
  | .mk _ _ _ c _ _ _ _ _ _ => c

/-- Extends clauses of a class definition (the source field `extends`,
renamed because `extends` is a Lean keyword). -/
def extendsList : ClassDefinition → List Extend
  | .mk _ _ _ _ e _ _ _ _ _ => e

/-- Imports of a class definition. -/
def imports : ClassDefinition → List String
  | .mk _ _ _ _ _ i _ _ _ _ => i

/-- Equations of a class definition. -/
def equations : ClassDefinition → List Equation
  | .mk _ _ _ _ _ _ e _ _ _ => e

/-- Initial equations of a class definition. -/
def initial_equations : ClassDefinition → List Equation
  | .mk _ _ _ _ _ _ _ e _ _ => e

/-- Algorithm sections of a class definition. -/
def algorithms : ClassDefinition → List (List Statement)
  | .mk _ _ _ _ _ _ _ _ a _ => a

/-- Initial algorithm sections of a class definition. -/
def initial_algorithms : ClassDefinition → List (List Statement)
  | .mk _ _ _ _ _ _ _ _ _ a => a

/-- Replace the text of the class's name token, as `main_class.name.text =
parts.join("_")` does in `flatten`. -/
def setNameText (c : ClassDefinition) (t : String) : ClassDefinition :=
  match c with
  | .mk n e cl co ex im eq ie al ia =>
      .mk { n with text := t } e cl co ex im eq ie al ia

/-- Replace the component mapping of a class definition. -/
def setComponents (c : ClassDefinition) (m : IndexMap Component) :
    ClassDefinition :=
  match c with
  | .mk n e cl _ ex im eq ie al ia => .mk n e cl m ex im eq ie al ia

/-- Replace the equation list of a class definition. -/
def setEquations (c : ClassDefinition) (l : List Equation) : ClassDefinition :=
  match c with
  | .mk n e cl co ex im _ ie al ia => .mk n e cl co ex im l ie al ia

/-- Replace equations and initial equations together (used by the class-level
visitor application). -/
def mapEquationLists (c : ClassDefinition) (f : Equation → Equation) :
    ClassDefinition :=
  match c with
  | .mk n e cl co ex im eq ie al ia =>
      .mk n e cl co ex im (eq.map f) (ie.map f) al ia

@[simp] theorem name_setComponents (c : ClassDefinition) (m : IndexMap Component) :
    (c.setComponents m).name = c.name := by cases c; rfl

@[simp] theorem components_setComponents (c : ClassDefinition) (m : IndexMap Component) :
    (c.setComponents m).components = m := by cases c; rfl

@[simp] theorem equations_setComponents (c : ClassDefinition) (m : IndexMap Component) :
    (c.setComponents m).equations = c.equations := by cases c; rfl

@[simp] theorem extendsList_setComponents (c : ClassDefinition) (m : IndexMap Component) :
    (c.setComponents m).extendsList = c.extendsList := by cases c; rfl

@[simp] theorem components_setEquations (c : ClassDefinition) (l : List Equation) :
    (c.setEquations l).equations = l := by cases c; rfl

@[simp] theorem components_setEquations_components (c : ClassDefinition) (l : List Equation) :
    (c.setEquations l).components = c.components := by cases c; rfl

@[simp] theorem extendsList_setEquations (c : ClassDefinition) (l : List Equation) :
    (c.setEquations l).extendsList = c.extendsList := by cases c; rfl

@[simp] theorem name_setEquations (c : ClassDefinition) (l : List Equation) :
    (c.setEquations l).name = c.name := by cases c; rfl

@[simp] theorem components_setNameText (c : ClassDefinition) (t : String) :
    (c.setNameText t).components = c.components := by cases c; rfl

@[simp] theorem equations_setNameText (c : ClassDefinition) (t : String) :
    (c.setNameText t).equations = c.equations := by cases c; rfl

@[simp] theorem extendsList_setNameText (c : ClassDefinition) (t : String) :
    (c.setNameText t).extendsList = c.extendsList := by cases c; rfl

@[simp] theorem classes_setNameText (c : ClassDefinition) (t : String) :
    (c.setNameText t).classes = c.classes := by cases c; rfl

@[simp] theorem name_setNameText (c : ClassDefinition) (t : String) :
    (c.setNameText t).name = { c.name with text := t } := by cases c; rfl

@[simp] theorem components_mapEquationLists (c : ClassDefinition) (f : Equation → Equation) :
    (c.mapEquationLists f).components = c.components := by cases c; rfl

@[simp] theorem equations_mapEquationLists (c : ClassDefinition) (f : Equation → Equation) :
    (c.mapEquationLists f).equations = c.equations.map f := by cases c; rfl

@[simp] theorem name_mapEquationLists (c : ClassDefinition) (f : Equation → Equation) :
    (c.mapEquationLists f).name = c.name := by cases c; rfl

@[simp] theorem extendsList_mapEquationLists (c : ClassDefinition) (f : Equation → Equation) :
    (c.mapEquationLists f).extendsList = c.extendsList := by cases c; rfl

end ClassDefinition

/-- A stored definition (spec section 3): optional `within` clause plus the
ordered mapping of top-level classes. -/
structure StoredDefinition where
  within : Option Name
  classes : IndexMap ClassDefinition
deriving Repr

/-! IndexMap operations.  `indexmap::IndexMap` iterates in insertion order;
`get` looks a key up; `insert` overwrites the value in place when the key is
present (keeping its position) and appends otherwise; `swap_remove` removes a
key by swapping its entry with the last entry and popping, which perturbs the
position of what used to be the last entry. -/

/-- Model of `IndexMap::get`. -/
def imGet {α : Type} : IndexMap α → String → Option α
  | [], _ => none
  | (k', v) :: rest, k => if k' = k then some v else imGet rest k

/-- Model of `IndexMap::contains_key`. -/
def imContains {α : Type} (m : IndexMap α) (k : String) : Bool :=
  (imGet m k).isSome

/-- Model of `IndexMap::insert`: overwrite in place when present, append
otherwise. -/
def imInsert {α : Type} : IndexMap α → String → α → IndexMap α
  | [], k, v => [(k, v)]
  | (k', v') :: rest, k, v =>
      if k' = k then (k, v) :: rest else (k', v') :: imInsert rest k v

/-- Folded insertion of a whole association list, in order; models the
`for ... { map.insert(...) }` loops of `flatten`. -/
def imInsertAll {α : Type} (m : IndexMap α) (adds : IndexMap α) : IndexMap α :=
  adds.foldl (fun acc p => imInsert acc p.1 p.2) m

/-- Index of the first entry with the given key. -/
def imFindIdx {α : Type} : IndexMap α → String → Option Nat
  | [], _ => none
  | (k', _) :: rest, k =>
      if k' = k then some 0 else (imFindIdx rest k).map (· + 1)

/-- Last entry of a map. -/
def imLast {α : Type} : IndexMap α → Option (String × α)
  | [] => none
  | [p] => some p
  | _ :: rest => imLast rest

/-- Model of `IndexMap::swap_remove`: locate the key, swap its entry with the
last entry, pop the last entry.  This perturbs the position of what used to
be the last entry.  Absent keys leave the map unchanged. -/
def imSwapRemove {α : Type} (m : IndexMap α) (k : String) : IndexMap α :=
  match imFindIdx m k with
  | none => m
  | some i =>
      match imLast m with
      | none => m
      | some last => (m.set i last).dropLast

/-- Insertion-order key list of a map. -/
def imKeys {α : Type} (m : IndexMap α) : List String :=
  m.map Prod.fst

/-- Parts of a component reference. -/
def ComponentReference.parts : ComponentReference → List ComponentRefPart
  | .mk _ ps => ps

/-- Local (leading-dot) flag of a component reference. -/
def ComponentReference.isLocal : ComponentReference → Bool
  | .mk l _ => l

/-- Identifier of a component-reference part. -/
def ComponentRefPart.ident : ComponentRefPart → Token
  | .mk i _ => i

/-- Subscripts of a component-reference part. -/
def ComponentRefPart.subs : ComponentRefPart → Option (List Subscript)
  | .mk _ s => s

/-! Visitor framework.  Modelled from the spec (section 4.3): the
`ir::visitor`/`ir::visitors` modules are not part of the provided sources.
A visitor is a single recursive descent over the expression and equation
trees parameterized by a hook on component references; the walk is
post-order and total.  `ScopePusher` and `SubCompNamer` are the two hooks
required by `flatten`. -/

mutual

/-- Modelled from the spec: post-order traversal applying hook `f` to every
component reference of an expression tree. -/
def mapCrefExpr (f : ComponentReference → ComponentReference) :
    Expression → Expression
  | .Empty => .Empty
  | .Terminal t tok => .Terminal t tok
  | .ComponentReference c => .ComponentReference (f (mapCrefCref f c))
  | .Unary op r => .Unary op (mapCrefExpr f r)
  | .Binary l op r => .Binary (mapCrefExpr f l) op (mapCrefExpr f r)
  | .FunctionCall c args => .FunctionCall (f (mapCrefCref f c)) (mapCrefExprList f args)
  | .Range s st e =>
      .Range (mapCrefExpr f s)
        (match st with
         | none => none
         | some st => some (mapCrefExpr f st))
        (mapCrefExpr f e)

/-- Traversal of the subscript expressions nested inside a component
reference (the reference itself is handed to the hook by the caller). -/
def mapCrefCref (f : ComponentReference → ComponentReference) :
    ComponentReference → ComponentReference
  | .mk l parts => .mk l (mapCrefParts f parts)

/-- Traversal over a list of component-reference parts. -/
def mapCrefParts (f : ComponentReference → ComponentReference) :
    List ComponentRefPart → List ComponentRefPart
  | [] => []
  | .mk i subs :: rest =>
      .mk i
          (match subs with
           | none => none
           | some l => some (mapCrefSubs f l)) :: mapCrefParts f rest

/-- Traversal over a list of subscripts. -/
def mapCrefSubs (f : ComponentReference → ComponentReference) :
    List Subscript → List Subscript
  | [] => []
  | .Range t :: rest => .Range t :: mapCrefSubs f rest
  | .Expr e :: rest => .Expr (mapCrefExpr f e) :: mapCrefSubs f rest

/-- Traversal over a list of expressions. -/
def mapCrefExprList (f : ComponentReference → ComponentReference) :
    List Expression → List Expression
  | [] => []
  | e :: rest => mapCrefExpr f e :: mapCrefExprList f rest

end

mutual

/-- Modelled from the spec: post-order traversal applying hook `f` to every
component reference of an equation tree. -/
def mapCrefEq (f : ComponentReference → ComponentReference) :
    Equation → Equation
  | .Simple l r => .Simple (mapCrefExpr f l) (mapCrefExpr f r)
  | .Connect l r => .Connect (f (mapCrefCref f l)) (f (mapCrefCref f r))
  | .FunctionCall c args =>
      .FunctionCall (f (mapCrefCref f c)) (mapCrefExprList f args)
  | .If blocks els =>
      .If (mapCrefBlocks f blocks)
        (match els with
         | none => none
         | some l => some (mapCrefEqList f l))
  | .When blocks => .When (mapCrefBlocks f blocks)

/-- Traversal over a list of equation blocks. -/
def mapCrefBlocks (f : ComponentReference → ComponentReference) :
    List EquationBlock → List EquationBlock
  | [] => []
  | .mk c eqs :: rest =>
      .mk (mapCrefExpr f c) (mapCrefEqList f eqs) :: mapCrefBlocks f rest

/-- Traversal over a list of equations. -/
def mapCrefEqList (f : ComponentReference → ComponentReference) :
    List Equation → List Equation
  | [] => []
  | e :: rest => mapCrefEq f e :: mapCrefEqList f rest

end

/-- Modelled from the spec: the `ScopePusher` hook.  A component reference
whose first part's identifier is neither a reserved global symbol nor a
local symbol gains `comp` as a new leading part. -/
def scopePushHook (global_symbols symbols : List String) (comp : String)
    (c : ComponentReference) : ComponentReference :=
  match c.parts with
  | [] => c
  | p :: _ =>
      if p.ident.text ∈ global_symbols ∨ p.ident.text ∈ symbols then c
      else .mk c.isLocal (.mk (tokenText comp) none :: c.parts)

/-- Modelled from the spec: the `SubCompNamer` hook.  A component reference
whose first part's identifier equals `comp` and which has at least one more
part has its first two parts collapsed into the single identifier
`comp_sub`. -/
def subCompNameHook (comp : String) (c : ComponentReference) :
    ComponentReference :=
  match c.parts with
  | .mk i _ :: .mk j subs :: rest =>
      if i.text = comp then
        .mk c.isLocal (.mk (tokenText (comp ++ "_" ++ j.text)) subs :: rest)
      else c
  | _ => c

/-- ScopePusher applied to an equation, as `feq.accept(&mut scope_pusher)`
does in `flatten`. -/
def scopePushEq (global_symbols symbols : List String) (comp : String)
    (e : Equation) : Equation :=
  mapCrefEq (scopePushHook global_symbols symbols comp) e

/-- Modelled from the spec: `fclass.accept(&mut SubCompNamer { comp })`
rewrites the component references inside the class's equation lists (spec
section 4.2 step 4 renames references "within already-added equations of
the output"). -/
def subCompNameClass (comp : String) (c : ClassDefinition) : ClassDefinition :=
  c.mapEquationLists (mapCrefEq (subCompNameHook comp))

/-! The flattener, translated from `src/ir/flatten.rs`.  Rust `panic!` and
`expect` calls are made explicit as `FlattenError` values; the source
function's `anyhow::Result` return value is otherwise always `Ok`. -/

/-- Abnormal terminations of `flatten`: the `panic!` on an empty path, the
`panic!`s (via `unwrap_or_else`) on a failed class lookup, and the `expect`
on a failed extends lookup.  Each carries the name the panic message
formats. -/
inductive FlattenError where
  | panicInvalidName (model_class : String)
  | panicClassNotFound (name : String)
  | panicExtendNotFound (name : String)
deriving Repr, DecidableEq

/-- Rust's `model_class.split('.')`: splits at every dot; the result is
never empty (an input without dots yields the one-element list holding the
whole input). -/
def splitDot (s : String) : List String :=
  (s.toList.foldr
    (fun ch acc =>
      if ch = '.' then [] :: acc
      else
        match acc with
        | [] => [[ch]]
        | g :: gs => (ch :: g) :: gs)
    [[]]).map (fun l => String.mk l)

/-- The nested-lookup loop of `flatten` (lines 48-55): each remaining path
segment resolves against the `classes` map of the previous step. -/
def lookupNested : ClassDefinition → List String → Option ClassDefinition
  | c, [] => some c
  | c, p :: rest =>
      match imGet c.classes p with
      | none => none
      | some c' => lookupNested c' rest

/-- The extends loop of `flatten` (lines 64-80): for each extends entry the
base class is looked up in the top-level classes mapping; its components
are inserted into the flat class and its equations appended. -/
def applyExtends (sd : StoredDefinition) :
    List Extend → ClassDefinition → Except FlattenError ClassDefinition
  | [], fc => .ok fc
  | e :: rest, fc =>
      match imGet sd.classes (nameToString e.comp) with
      | none => .error (.panicExtendNotFound (nameToString e.comp))
      | some b =>
          let fc := fc.setComponents (imInsertAll fc.components b.components)
          let fc := fc.setEquations (fc.equations ++ b.equations)
          applyExtends sd rest fc

/-- The reserved global symbols of the `ScopePusher` built by `flatten`
(lines 88-99). -/
def flattenGlobals : List String := ["time", "der", "pre", "cos", "sin", "tan"]

/-- The component-expansion loop of `flatten` (lines 101-131), iterating
over the components of the looked-up class.  When a component's type names
a stored class: its equations are scope-pushed and appended, the flat
class's equation lists are rewritten by `SubCompNamer`, the sub-components
are inserted under mangled names, and the component itself is removed with
`swap_remove`. -/
def expandComponents (sd : StoredDefinition) :
    List (String × Component) → ClassDefinition → ClassDefinition
  | [], fc => fc
  | (comp_name, comp) :: rest, fc =>
      match imGet sd.classes (nameToString comp.type_name) with
      | none => expandComponents sd rest fc
      | some comp_class =>
          let feqs := comp_class.equations.map
            (scopePushEq flattenGlobals [] comp_name)
          let fc := fc.setEquations (fc.equations ++ feqs)
          let fc := subCompNameClass comp_name fc
          let fc := fc.setComponents (imInsertAll fc.components
            (comp_class.components.map
              (fun p => (comp_name ++ "_" ++ p.1, p.2.setName (comp_name ++ "_" ++ p.1)))))
          let fc := fc.setComponents (imSwapRemove fc.components comp_name)
          expandComponents sd rest fc

/-- The `flatten` function of `src/ir/flatten.rs`.  The connect-equation
loop of the source (lines 83-85) has an empty body and is omitted.  The
lookup in the expansion loop is written `if contains_key { get().unwrap() }`
in the source, which is the single `imGet` match here. -/
def flatten (sd : StoredDefinition) (model_class : String) :
    Except FlattenError ClassDefinition :=
  let parts := splitDot model_class
  match parts with
  | [] => .error (.panicInvalidName model_class)
  | p0 :: rest =>
      match imGet sd.classes p0 with
      | none => .error (.panicClassNotFound p0)
      | some c0 =>
          match lookupNested c0 rest with
          | none => .error (.panicClassNotFound p0)
          | some part_class =>
              let main_class := part_class.setNameText (joinParts "_" parts)
              match applyExtends sd main_class.extendsList main_class with
              | .error e => .error e
              | .ok fclass =>
                  .ok (expandComponents sd main_class.components fclass)

/-! Grammar-to-IR lowering, translated from `src/modelica_grammar.rs`.  The
parol-generated `modelica_grammar_trait` types are modelled with exactly the
fields the lowering code reads; their expression-valued children hold
already-lowered `Expression` values, because parol substitutes the user
types produced by the nested `TryFrom` conversions.  Rust `todo!` calls and
`anyhow!` errors are explicit error values. -/

/-- Failures of the lowering stage: `todo!` panics with the construct name
they carry, structural `anyhow!` errors, and the out-of-bounds vector index
of the output-primary arm. -/
inductive LowerError where
  | todoUnimplemented (construct : String)
  | malformedInput (reason : String)
  | panicIndexOutOfBounds
deriving Repr, DecidableEq

/-- Multiplicative operator tokens of the grammar. -/
inductive MulOperator where
  | Star (token : Token)
  | Slash (token : Token)
  | DotStar (token : Token)
  | DotSlash (token : Token)
deriving Repr, DecidableEq

/-- Additive operator tokens of the grammar. -/
inductive AddOperator where
  | Plus (token : Token)
  | Minus (token : Token)
  | DotPlus (token : Token)
  | DotMinus (token : Token)
deriving Repr, DecidableEq

/-- Grammar node `Factor`: a primary followed by a possibly empty list of
`^ primary` repetitions, each child already lowered. -/
structure FactorAst where
  primary : Expression
  factor_list : List Expression
deriving Repr

/-- Lowering of `Factor` (lines 1021-1035): an empty repetition list gives
the primary back; otherwise the result is a single `^` node built from the
primary and the FIRST repeated primary with a defaulted operator token. -/
def factorTryFrom (ast : FactorAst) : Except LowerError Expression :=
  match ast.factor_list with
  | [] => .ok ast.primary
  | p :: _ => .ok (.Binary ast.primary (.Exp Token.zero) p)

/-- One `mul_operator factor` repetition of grammar node `Term`. -/
structure TermItem where
  mul_operator : MulOperator
  factor : Expression
deriving Repr

/-- Grammar node `Term`: a factor and its repetitions. -/
structure TermAst where
  factor : Expression
  term_list : List TermItem
deriving Repr

/-- Operator mapping of the `Term` lowering. -/
def mulOpBinary : MulOperator → OpBinary
  | .Star t => .Mul t
  | .Slash t => .Div t
  | .DotSlash t => .DivElem t
  | .DotStar t => .MulElem t

/-- Lowering of `Term` (lines 1037-1068): left fold of the repetitions over
the leading factor. -/
def termTryFrom (ast : TermAst) : Expression :=
  match ast.term_list with
  | [] => ast.factor
  | _ =>
      ast.term_list.foldl
        (fun lhs t => .Binary lhs (mulOpBinary t.mul_operator) t.factor)
        ast.factor

/-- One `add_operator term` repetition of grammar node
`ArithmeticExpression`. -/
structure ArithItem where
  add_operator : AddOperator
  term : Expression
deriving Repr

/-- Grammar node `ArithmeticExpression`: optional leading sign, a term, and
the repetitions. -/
structure ArithAst where
  sign : Option AddOperator
  term : Expression
  arithmetic_expression_list : List ArithItem
deriving Repr

/-- Unary operator mapping of the leading-sign arm. -/
def addOpUnary : AddOperator → OpUnary
  | .Minus t => .Minus t
  | .Plus t => .Plus t
  | .DotMinus t => .DotMinus t
  | .DotPlus t => .DotPlus t

/-- Binary operator mapping of the repetition arm. -/
def addOpBinary : AddOperator → OpBinary
  | .Plus t => .Add t
  | .Minus t => .Sub t
  | .DotPlus t => .AddElem t
  | .DotMinus t => .SubElem t

/-- Lowering of `ArithmeticExpression` (lines 1070-1123): the optional sign
wraps only the first term; the repetitions fold left over it. -/
def arithTryFrom (ast : ArithAst) : Expression :=
  let lhs :=
    match ast.sign with
    | some op => .Unary (addOpUnary op) ast.term
    | none => ast.term
  ast.arithmetic_expression_list.foldl
    (fun lhs t => .Binary lhs (addOpBinary t.add_operator) t.term) lhs

/-- Grammar node `LogicalTerm`: a logical factor and the `and` repetitions
(the lowering reads only the repeated factors; the `and` keyword token is
replaced by a defaulted token). -/
structure LogicalTermAst where
  logical_factor : Expression
  logical_term_list : List Expression
deriving Repr

/-- Lowering of `LogicalTerm` (lines 1178-1198): left fold of `and` nodes
with defaulted operator tokens. -/
def logicalTermTryFrom (ast : LogicalTermAst) : Expression :=
  match ast.logical_term_list with
  | [] => ast.logical_factor
  | _ =>
      ast.logical_term_list.foldl
        (fun lhs t => .Binary lhs (.And Token.zero) t) ast.logical_factor

/-- Grammar node `LogicalExpression`: a logical term and the `or`
repetitions. -/
structure LogicalExpressionAst where
  logical_term : Expression
  logical_expression_list : List Expression
deriving Repr

/-- Lowering of `LogicalExpression` (lines 1200-1220): left fold of `or`
nodes with defaulted operator tokens. -/
def logicalExpressionTryFrom (ast : LogicalExpressionAst) : Expression :=
  match ast.logical_expression_list with
  | [] => ast.logical_term
  | _ =>
      ast.logical_expression_list.foldl
        (fun lhs t => .Binary lhs (.Or Token.zero) t) ast.logical_term

/-- Grammar node `Primary`, with the payloads the lowering reads.  The
array and range arms carry no payload because the lowering rejects them
before reading one; the output arm's optional trailing `array subscripts /
identifier` payload is modelled by the flag the code tests with
`is_some()`. -/
inductive PrimaryAst where
  | ComponentPrimary (comp : ComponentReference) (callArgs : Option (List Expression))
  | UnsignedIntegerLit (token : Token)
  | UnsignedRealLit (token : Token)
  | StringLit (token : Token)
  | TrueLit (token : Token)
  | FalseLit (token : Token)
  | EndKw (token : Token)
  | ArrayPrimary
  | RangePrimary
  | OutputPrimary (hasTrailing : Bool) (output_expression_list : List Expression)
  | GlobalFunctionCall (keyword : Token) (args : List Expression)
deriving Repr

/-- Lowering of `Primary` (lines 929-1019).  The output arm indexes
`args[0]` unconditionally after rejecting lists longer than one; on an
empty list that Rust index panics, modelled by `panicIndexOutOfBounds`. -/
def primaryTryFrom (ast : PrimaryAst) : Except LowerError Expression :=
  match ast with
  | .ComponentPrimary comp callArgs =>
      match callArgs with
      | some args => .ok (.FunctionCall comp args)
      | none => .ok (.ComponentReference comp)
  | .UnsignedIntegerLit t => .ok (.Terminal .UnsignedInteger t)
  | .UnsignedRealLit t => .ok (.Terminal .UnsignedReal t)
  | .StringLit t => .ok (.Terminal .String t)
  | .TrueLit t => .ok (.Terminal .Bool t)
  | .FalseLit t => .ok (.Terminal .Bool t)
  | .EndKw t => .ok (.Terminal .End t)
  | .ArrayPrimary => .error (.todoUnimplemented "array")
  | .RangePrimary => .error (.todoUnimplemented "expression list")
  | .OutputPrimary hasTrailing args =>
      if hasTrailing then
        .error (.todoUnimplemented "output_primary array subs/ ident")
      else if args.length > 1 then
        .error (.todoUnimplemented "comma in output primary")
      else
        match args with
        | [] => .error .panicIndexOutOfBounds
        | x :: _ => .ok x
  | .GlobalFunctionCall keyword args =>
      .ok (.FunctionCall (.mk false [.mk keyword none]) args)

/-- The statement group of a component statement: `:= expr` or call
arguments. -/
inductive ComponentStatementGroupAst where
  | ColonEquExpression (e : Expression)
  | FunctionCallArgs (args : List Expression)
deriving Repr

/-- Grammar node `StatementOption`, with the payloads the lowering reads.
The for/if/when/while/function-call-output arms carry no payload because
the lowering matches them with `(..)`. -/
inductive StatementOptionAst where
  | ComponentStatement (comp : ComponentReference)
      (group : ComponentStatementGroupAst)
  | BreakStmt (token : Token)
  | ReturnStmt (token : Token)
  | ForStatement
  | IfStatement
  | WhenStatement
  | WhileStatement
  | FunctionCallOutputStatement
deriving Repr

/-- Lowering of `Statement` (lines 670-713).  A `for` statement produces a
`Statement::For` with empty indices and equations (the source marks the
fields with a `// todo` comment); `if`, `when`, `while` and
function-call-output statements hit `todo!`. -/
def statementTryFrom (ast : StatementOptionAst) : Except LowerError Statement :=
  match ast with
  | .ComponentStatement comp g =>
      match g with
      | .ColonEquExpression e => .ok (.Assignment comp e)
      | .FunctionCallArgs args => .ok (.FunctionCall comp args)
  | .BreakStmt t => .ok (.Break t)
  | .ReturnStmt t => .ok (.Return t)
  | .ForStatement => .ok (.For [] [])
  | .IfStatement => .error (.todoUnimplemented "if")
  | .WhenStatement => .error (.todoUnimplemented "when")
  | .WhileStatement => .error (.todoUnimplemented "while")
  | .FunctionCallOutputStatement => .error (.todoUnimplemented "function call")

/-- Modification expression of a declaration: `= expr` or `= break`. -/
inductive ModificationExpressionAst where
  | ExprMod (e : Expression)
  | BreakMod
deriving Repr

/-- Modification of a declaration: a class modification (whose argument
list the code parses but drops) or an `=`-modification. -/
inductive ModificationAst where
  | ClassMod (hasArgs : Bool)
  | EquMod (m : ModificationExpressionAst)
deriving Repr

/-- One declared identifier of a component clause: identifier, optional
modification, description tokens. -/
structure ComponentDeclarationAst where
  ident : Token
  modification : Option ModificationAst
  description : List Token
deriving Repr

/-- Lowering of one declaration of a component clause (lines 295-369 of
`ElementList::try_from`): the `Component` is built with a `0.0` start, the
start is then overwritten by the type-name match, and an `= expr`
modification finally replaces it; a class modification changes nothing and
`= break` hits `todo!`. -/
def lowerOneComponent (variability : Variability) (causality : Causality)
    (connection : Connection) (type_name : Name)
    (c : ComponentDeclarationAst) : Except LowerError Component :=
  let value : Component :=
    { name := c.ident.text, type_name := type_name,
      variability := variability, causality := causality,
      connection := connection, description := c.description,
      start := .Terminal .UnsignedReal (tokenText "0.0") }
  let value : Component :=
    { value with start :=
        if nameToString type_name = "Real" then
          .Terminal .UnsignedReal (tokenText "0.0")
        else if nameToString type_name = "Integer" then
          .Terminal .UnsignedInteger (tokenText "0")
        else if nameToString type_name = "Bool" then
          .Terminal .Bool (tokenText "0")
        else .Empty }
  match c.modification with
  | none => .ok value
  | some (.ClassMod _) => .ok value
  | some (.EquMod (.ExprMod e)) => .ok { value with start := e }
  | some (.EquMod .BreakMod) => .error (.todoUnimplemented "break")

/-- The component-clause loop of `ElementList::try_from`: lowers each
declared identifier and inserts it into the element list's component map. -/
def lowerComponentClause (variability : Variability) (causality : Causality)
    (connection : Connection) (type_name : Name)
    (comps : List ComponentDeclarationAst) (acc : IndexMap Component) :
    Except LowerError (IndexMap Component) :=
  match comps with
  | [] => .ok acc
  | c :: rest =>
      match lowerOneComponent variability causality connection type_name c with
      | .error e => .error e
      | .ok v => lowerComponentClause variability causality connection
          type_name rest (imInsert acc c.ident.text v)

/-! Library of facts about the association-list model of `IndexMap`. -/

section IndexMapFacts

variable {α : Type}

theorem imGet_append (l1 l2 : IndexMap α) (k : String) :
    imGet (l1 ++ l2) k =
      match imGet l1 k with
      | some v => some v
      | none => imGet l2 k := by
  induction l1 with
  | nil => rfl
  | cons p rest ih =>
      obtain ⟨k', v⟩ := p
      by_cases h : k' = k <;> simp [imGet, h, ih]

theorem imGet_eq_none_iff (m : IndexMap α) (k : String) :
    imGet m k = none ↔ k ∉ imKeys m := by
  induction m with
  | nil => simp [imGet, imKeys]
  | cons p rest ih =>
      obtain ⟨k', v⟩ := p
      by_cases h : k' = k
      · subst h; simp [imGet, imKeys]
      · simp only [imGet, if_neg h, imKeys, List.map_cons, List.mem_cons]
        rw [show (List.map Prod.fst rest : List String) = imKeys rest from rfl, ih]
        constructor
        · intro hn hc
          rcases hc with hc | hc
          · exact h hc.symm
          · exact hn hc
        · intro hn hm
          exact hn (Or.inr hm)

theorem imGet_isSome_iff (m : IndexMap α) (k : String) :
    (imGet m k).isSome = true ↔ k ∈ imKeys m := by
  rw [Option.isSome_iff_ne_none, ne_eq, imGet_eq_none_iff, not_not]

theorem mem_of_imGet_eq_some {m : IndexMap α} {k : String} {v : α}
    (h : imGet m k = some v) : (k, v) ∈ m := by
  induction m with
  | nil => simp [imGet] at h
  | cons p rest ih =>
      obtain ⟨k', v'⟩ := p
      by_cases hk : k' = k
      · subst hk
        have hv : some v' = some v := by simpa [imGet] using h
        cases hv
        exact List.mem_cons_self ..
      · have hr : imGet rest k = some v := by simpa [imGet, hk] using h
        exact List.mem_cons_of_mem _ (ih hr)

theorem imKeys_cons (k : String) (v : α) (rest : IndexMap α) :
    imKeys ((k, v) :: rest) = k :: imKeys rest := rfl

theorem nodup_cons_parts {k : String} {v : α} {rest : IndexMap α}
    (hnd : (imKeys ((k, v) :: rest)).Nodup) :
    k ∉ imKeys rest ∧ (imKeys rest).Nodup := by
  rw [imKeys_cons] at hnd
  exact List.nodup_cons.mp hnd

theorem imGet_eq_some_of_mem {m : IndexMap α} {k : String} {v : α}
    (hnd : (imKeys m).Nodup) (h : (k, v) ∈ m) : imGet m k = some v := by
  induction m with
  | nil => cases h
  | cons p rest ih =>
      obtain ⟨k', v'⟩ := p
      obtain ⟨hk', hnd'⟩ := nodup_cons_parts hnd
      rcases List.mem_cons.mp h with h | h
      · injection h with h1 h2
        subst h1; subst h2
        simp [imGet]
      · have hmap : k ∈ imKeys rest := by
          simpa [imKeys] using List.mem_map_of_mem Prod.fst h
        have hk : k' ≠ k := fun hh => hk' (hh ▸ hmap)
        simpa [imGet, hk] using ih hnd' h

theorem imKeys_imInsert (m : IndexMap α) (k : String) (v : α) :
    imKeys (imInsert m k v) =
      if k ∈ imKeys m then imKeys m else imKeys m ++ [k] := by
  induction m with
  | nil => simp [imInsert, imKeys]
  | cons p rest ih =>
      obtain ⟨k', v'⟩ := p
      by_cases h : k' = k
      · subst h; simp [imInsert, imKeys]
      · have hne : ¬k = k' := fun hh => h hh.symm
        have hstep : imInsert ((k', v') :: rest) k v = (k', v') :: imInsert rest k v := by
          simp only [imInsert, if_neg h]
        rw [hstep, imKeys_cons, ih]
        have hcond : (k ∈ imKeys ((k', v') :: rest)) ↔ (k ∈ imKeys rest) := by
          rw [imKeys_cons, List.mem_cons]
          exact ⟨fun hc => hc.elim (fun hc => absurd hc hne) id, Or.inr⟩
        by_cases hmem : k ∈ imKeys rest
        · rw [if_pos hmem, if_pos (hcond.mpr hmem), imKeys_cons]
        · rw [if_neg hmem, if_neg (fun hc => hmem (hcond.mp hc)), imKeys_cons,
            List.cons_append]

theorem imGet_imInsert_self (m : IndexMap α) (k : String) (v : α) :
    imGet (imInsert m k v) k = some v := by
  induction m with
  | nil => simp [imInsert, imGet]
  | cons p rest ih =>
      obtain ⟨k', v'⟩ := p
      by_cases h : k' = k <;> simp [imInsert, imGet, h, ih]

theorem imGet_imInsert_ne (m : IndexMap α) (k : String) (v : α) (k' : String)
    (h : k' ≠ k) : imGet (imInsert m k v) k' = imGet m k' := by
  have hkk : ¬k = k' := fun hh => h hh.symm
  induction m with
  | nil => simp [imInsert, imGet, hkk]
  | cons p rest ih =>
      obtain ⟨k'', v''⟩ := p
      by_cases h2 : k'' = k
      · subst h2; simp [imInsert, imGet, hkk]
      · by_cases h3 : k'' = k'
        · subst h3; simp [imInsert, imGet, h2]
        · simp [imInsert, imGet, h2, h3, ih]

theorem imInsert_nodup (m : IndexMap α) (k : String) (v : α)
    (hnd : (imKeys m).Nodup) : (imKeys (imInsert m k v)).Nodup := by
  rw [imKeys_imInsert]
  split
  · exact hnd
  · next h => simpa [List.nodup_append] using ⟨hnd, h⟩

theorem imInsertAll_cons (m : IndexMap α) (k : String) (v : α)
    (rest : IndexMap α) :
    imInsertAll m ((k, v) :: rest) = imInsertAll (imInsert m k v) rest := rfl

theorem imInsertAll_nodup (m adds : IndexMap α)
    (hnd : (imKeys m).Nodup) : (imKeys (imInsertAll m adds)).Nodup := by
  induction adds generalizing m with
  | nil => exact hnd
  | cons p rest ih =>
      obtain ⟨k, v⟩ := p
      rw [imInsertAll_cons]
      exact ih _ (imInsert_nodup _ _ _ hnd)

theorem imGet_imInsertAll_not_mem (m adds : IndexMap α) (k : String)
    (h : k ∉ imKeys adds) : imGet (imInsertAll m adds) k = imGet m k := by
  induction adds generalizing m with
  | nil => rfl
  | cons p rest ih =>
      obtain ⟨k', v⟩ := p
      have hk : k ≠ k' := by
        intro hh; subst hh; simp [imKeys] at h
      have hrest : k ∉ imKeys rest := by simp [imKeys] at h ⊢; tauto
      rw [imInsertAll_cons, ih _ hrest, imGet_imInsert_ne _ _ _ _ hk]

theorem imGet_imInsertAll_mem (m l1 l2 : IndexMap α) (k : String) (v : α)
    (h2 : k ∉ imKeys l2) :
    imGet (imInsertAll m (l1 ++ (k, v) :: l2)) k = some v := by
  induction l1 generalizing m with
  | nil =>
      rw [List.nil_append, imInsertAll_cons,
        imGet_imInsertAll_not_mem _ _ _ h2, imGet_imInsert_self]
  | cons p rest ih =>
      obtain ⟨k', v'⟩ := p
      rw [List.cons_append, imInsertAll_cons]
      exact ih _

theorem imKeys_imInsertAll (m adds : IndexMap α)
    (hnd : (imKeys adds).Nodup) :
    imKeys (imInsertAll m adds) =
      imKeys m ++ (imKeys adds).filter (fun k => !decide (k ∈ imKeys m)) := by
  induction adds generalizing m with
  | nil => exact (List.append_nil _).symm
  | cons p rest ih =>
      obtain ⟨k, v⟩ := p
      obtain ⟨hk, hnd'⟩ := nodup_cons_parts hnd
      rw [imInsertAll_cons, ih _ hnd', imKeys_imInsert]
      by_cases hmem : k ∈ imKeys m
      · simp only [if_pos hmem]
        have hdrop : (imKeys ((k, v) :: rest)).filter (fun x => !decide (x ∈ imKeys m)) =
            (imKeys rest).filter (fun x => !decide (x ∈ imKeys m)) := by
          have hmem' : k ∈ List.map Prod.fst m := hmem
          rw [imKeys_cons, List.filter_cons]
          simp [imKeys, hmem']
        rw [hdrop]
      · simp only [if_neg hmem]
        have hfilter : (imKeys rest).filter (fun x => !decide (x ∈ imKeys m ++ [k])) =
            (imKeys rest).filter (fun x => !decide (x ∈ imKeys m)) := by
          apply List.filter_congr
          intro x hx
          have hxk : x ≠ k := fun hh => hk (hh ▸ hx)
          simp [List.mem_append, hxk]
        rw [hfilter]
        have hkeep : (imKeys ((k, v) :: rest)).filter (fun x => !decide (x ∈ imKeys m)) =
            k :: (imKeys rest).filter (fun x => !decide (x ∈ imKeys m)) := by
          have hmem' : k ∉ List.map Prod.fst m := hmem
          rw [imKeys_cons, List.filter_cons]
          simp [imKeys, hmem']
        rw [hkeep, List.append_assoc, List.singleton_append]

theorem imLast_cons_cons (p q : String × α) (rest : IndexMap α) :
    imLast (p :: q :: rest) = imLast (q :: rest) := rfl

theorem imLast_append_cons (pre : IndexMap α) (p : String × α)
    (rest : IndexMap α) : imLast (pre ++ p :: rest) = imLast (p :: rest) := by
  induction pre with
  | nil => rfl
  | cons q pre ih =>
      cases pre with
      | nil => cases rest <;> simp [imLast, ih]
      | cons r pre' => rw [List.cons_append, List.cons_append, imLast_cons_cons,
          ← List.cons_append, ih]

theorem dropLast_append_cons (l1 : List (String × α)) (p : String × α)
    (l2 : List (String × α)) :
    (l1 ++ p :: l2).dropLast = l1 ++ (p :: l2).dropLast := by
  induction l1 with
  | nil => rfl
  | cons q l1 ih =>
      cases l1 with
      | nil => cases l2 <;> simp [List.dropLast, ih]
      | cons r l1' =>
          rw [List.cons_append, List.cons_append, List.dropLast_cons₂,
            ← List.cons_append, ih]
          rfl

theorem imFindIdx_append_first (pre : IndexMap α) (k : String) (v : α)
    (rest : IndexMap α) (hk : k ∉ imKeys pre) :
    imFindIdx (pre ++ (k, v) :: rest) k = some pre.length := by
  induction pre with
  | nil => simp [imFindIdx]
  | cons q pre ih =>
      obtain ⟨k', v'⟩ := q
      have h1 : k' ≠ k := by
        intro hh; exact hk (by simp [imKeys, hh])
      have h2 : k ∉ imKeys pre := fun hc => hk (by simp [imKeys] at hc ⊢; tauto)
      simp [imFindIdx, h1, ih h2]

theorem imSwapRemove_last_entry (pre : IndexMap α) (k : String) (v : α)
    (hk : k ∉ imKeys pre) : imSwapRemove (pre ++ [(k, v)]) k = pre := by
  rw [imSwapRemove, imFindIdx_append_first pre k v [] hk]
  rw [show imLast (pre ++ [(k, v)]) = some (k, v) from by
    rw [imLast_append_cons]; rfl]
  show ((pre ++ [(k, v)]).set pre.length (k, v)).dropLast = pre
  rw [List.set_append_right _ _ (Nat.le_refl _)]
  simp

theorem imSwapRemove_middle (pre : IndexMap α) (k : String) (v : α)
    (q : String × α) (rest : IndexMap α) (hk : k ∉ imKeys pre) :
    imSwapRemove (pre ++ (k, v) :: q :: rest) k =
      pre ++ (imLast (q :: rest)).getD (k, v) :: (q :: rest).dropLast := by
  rw [imSwapRemove, imFindIdx_append_first pre k v (q :: rest) hk,
    imLast_append_cons, imLast_cons_cons]
  have hsome : ∃ last, imLast (q :: rest) = some last := by
    clear hk
    induction rest generalizing q with
    | nil => exact ⟨q, rfl⟩
    | cons r rest ih => rw [imLast_cons_cons]; exact ih r
  obtain ⟨last, hlast⟩ := hsome
  rw [hlast]
  show ((pre ++ (k, v) :: q :: rest).set pre.length last).dropLast =
    pre ++ (Option.getD (some last) (k, v)) :: (q :: rest).dropLast
  rw [List.set_append_right _ _ (Nat.le_refl _)]
  simp only [Nat.sub_self, List.set_cons_zero, Option.getD_some]
  rw [dropLast_append_cons]
  rfl

theorem imSwapRemove_not_mem (m : IndexMap α) (k : String)
    (h : k ∉ imKeys m) : imSwapRemove m k = m := by
  rw [imSwapRemove]
  have : imFindIdx m k = none := by
    induction m with
    | nil => rfl
    | cons p rest ih =>
        obtain ⟨k', v'⟩ := p
        have h1 : k' ≠ k := by
          intro hh; exact h (by simp [imKeys, hh])
        have h2 : k ∉ imKeys rest := fun hc => h (by simp [imKeys] at hc ⊢; tauto)
        simp [imFindIdx, h1, ih h2]
  rw [this]

/-- First-occurrence decomposition of a key's entry. -/
theorem exists_split_of_mem_keys {m : IndexMap α} {k : String}
    (h : k ∈ imKeys m) :
    ∃ pre v rest, m = pre ++ (k, v) :: rest ∧ k ∉ imKeys pre := by
  induction m with
  | nil => cases h
  | cons p rest ih =>
      obtain ⟨k', v'⟩ := p
      by_cases hk : k' = k
      · subst hk
        exact ⟨[], v', rest, rfl, by simp [imKeys]⟩
      · have hmem : k ∈ imKeys rest := by
          rcases List.mem_cons.mp h with h | h
          · exact absurd h.symm hk
          · exact h
        obtain ⟨pre, v, rest', heq, hpre⟩ := ih hmem
        refine ⟨(k', v') :: pre, v, rest', by rw [heq, List.cons_append], ?_⟩
        intro hc
        rcases List.mem_cons.mp hc with hc | hc
        · exact hk hc.symm
        · exact hpre hc

theorem imKeys_append (l1 l2 : IndexMap α) :
    imKeys (l1 ++ l2) = imKeys l1 ++ imKeys l2 := by
  simp [imKeys]

/-- The entries of a swap-removed map are a permutation of the original
entries minus the removed one, provided the key occurs. -/
theorem imSwapRemove_perm (pre : IndexMap α) (k : String) (v : α)
    (rest : IndexMap α) (hk : k ∉ imKeys pre) :
    (imSwapRemove (pre ++ (k, v) :: rest) k).Perm (pre ++ rest) := by
  cases rest with
  | nil => rw [imSwapRemove_last_entry pre k v hk, List.append_nil]
  | cons q rest' =>
      rw [imSwapRemove_middle pre k v q rest' hk]
      apply List.Perm.append_left
      have hdecomp : q :: rest' =
          (q :: rest').dropLast ++ [(imLast (q :: rest')).getD (k, v)] := by
        clear hk
        induction rest' generalizing q with
        | nil => rfl
        | cons r rest'' ih =>
            rw [imLast_cons_cons, List.dropLast_cons₂, List.cons_append, ← ih r]
      conv_rhs => rw [hdecomp]
      show ([(imLast (q :: rest')).getD (k, v)] ++ (q :: rest').dropLast).Perm
        ((q :: rest').dropLast ++ [(imLast (q :: rest')).getD (k, v)])
      exact List.perm_append_comm

theorem imSwapRemove_nodup (m : IndexMap α) (k : String)
    (hnd : (imKeys m).Nodup) : (imKeys (imSwapRemove m k)).Nodup := by
  by_cases h : k ∈ imKeys m
  · obtain ⟨pre, v, rest, heq, hpre⟩ := exists_split_of_mem_keys h
    subst heq
    have hperm := imSwapRemove_perm pre k v rest hpre
    have hkeys : (imKeys (imSwapRemove (pre ++ (k, v) :: rest) k)).Perm
        (imKeys (pre ++ rest)) := hperm.map Prod.fst
    refine hkeys.nodup_iff.mpr ?_
    rw [imKeys_append]
    rw [imKeys_append] at hnd
    have : (imKeys pre ++ imKeys ((k, v) :: rest)).Nodup := hnd
    rw [imKeys_cons] at this
    rcases List.nodup_append.mp this with ⟨h1, h2, h3⟩
    rw [List.nodup_append]
    refine ⟨h1, (List.nodup_cons.mp h2).2, ?_⟩
    intro a ha hb
    exact h3 ha (List.mem_cons_of_mem _ hb)
  · rw [imSwapRemove_not_mem _ _ h]; exact hnd

theorem imGet_imSwapRemove_ne (m : IndexMap α) (k k' : String)
    (hnd : (imKeys m).Nodup) (h : k' ≠ k) :
    imGet (imSwapRemove m k) k' = imGet m k' := by
  by_cases hmem : k ∈ imKeys m
  · obtain ⟨pre, v, rest, heq, hpre⟩ := exists_split_of_mem_keys hmem
    subst heq
    have hperm := imSwapRemove_perm pre k v rest hpre
    have hnd1 : (imKeys (imSwapRemove (pre ++ (k, v) :: rest) k)).Nodup :=
      imSwapRemove_nodup _ _ hnd
    cases hcase : imGet (pre ++ (k, v) :: rest) k' with
    | some w =>
        have hmem2 : (k', w) ∈ pre ++ (k, v) :: rest :=
          mem_of_imGet_eq_some hcase
        have hmem3 : (k', w) ∈ pre ++ rest := by
          rcases List.mem_append.mp hmem2 with hm | hm
          · exact List.mem_append.mpr (Or.inl hm)
          · rcases List.mem_cons.mp hm with hm | hm
            · injection hm with h1 h2; exact absurd h1 h
            · exact List.mem_append.mpr (Or.inr hm)
        have hmem4 : (k', w) ∈ imSwapRemove (pre ++ (k, v) :: rest) k :=
          (hperm.mem_iff).mpr hmem3
        exact imGet_eq_some_of_mem hnd1 hmem4
    | none =>
        have hnone : k' ∉ imKeys (pre ++ (k, v) :: rest) :=
          (imGet_eq_none_iff _ _).mp hcase
        have hnone2 : k' ∉ imKeys (imSwapRemove (pre ++ (k, v) :: rest) k) := by
          intro hc
          have hc2 : k' ∈ imKeys (pre ++ rest) := (hperm.map Prod.fst).subset hc
          rw [imKeys_append] at hc2
          apply hnone
          rw [imKeys_append, imKeys_cons]
          rcases List.mem_append.mp hc2 with hm | hm
          · exact List.mem_append.mpr (Or.inl hm)
          · exact List.mem_append.mpr (Or.inr (List.mem_cons_of_mem _ hm))
        exact (imGet_eq_none_iff _ _).mpr hnone2
  · rw [imSwapRemove_not_mem _ _ hmem]

end IndexMapFacts

/-! Facts about the phases of `flatten`. -/

theorem string_append_left_cancel {a b c : String} (h : a ++ b = a ++ c) :
    b = c := by
  have hd : (a ++ b).data = (a ++ c).data := congrArg String.data h
  rw [String.data_append, String.data_append] at hd
  exact String.ext (List.append_cancel_left hd)

theorem ne_self_append_sep (cn sn : String) : cn ≠ cn ++ "_" ++ sn := by
  intro h
  have hlen := congrArg String.length h
  rw [String.length_append, String.length_append] at hlen
  have hone : ("_" : String).length = 1 := rfl
  omega

theorem mangled_injective_right (cn sn sn' : String)
    (h : cn ++ "_" ++ sn = cn ++ "_" ++ sn') : sn = sn' := by
  rw [String.append_assoc, String.append_assoc] at h
  exact string_append_left_cancel (string_append_left_cancel h)

/-- A component whose type is not a stored class leaves the expansion state
unchanged, so a list of such components is skipped entirely. -/
theorem expandComponents_nop (sd : StoredDefinition)
    (l : List (String × Component)) (fc : ClassDefinition)
    (h : ∀ p ∈ l, imContains sd.classes (nameToString p.2.type_name) = false) :
    expandComponents sd l fc = fc := by
  induction l generalizing fc with
  | nil => rfl
  | cons p rest ih =>
      have hp := h p (List.mem_cons_self ..)
      have hget : imGet sd.classes (nameToString p.2.type_name) = none := by
        cases hg : imGet sd.classes (nameToString p.2.type_name) with
        | none => rfl
        | some c => rw [imContains, hg] at hp; cases hp
      obtain ⟨cn, c⟩ := p
      rw [expandComponents, hget]
      exact ih fc (fun q hq => h q (List.mem_cons_of_mem _ hq))

/-- Skipping a prefix of non-class-typed components. -/
theorem expandComponents_append_nop (sd : StoredDefinition)
    (l1 l2 : List (String × Component)) (fc : ClassDefinition)
    (h : ∀ p ∈ l1, imContains sd.classes (nameToString p.2.type_name) = false) :
    expandComponents sd (l1 ++ l2) fc = expandComponents sd l2 fc := by
  induction l1 generalizing fc with
  | nil => rfl
  | cons p rest ih =>
      have hp := h p (List.mem_cons_self ..)
      have hget : imGet sd.classes (nameToString p.2.type_name) = none := by
        cases hg : imGet sd.classes (nameToString p.2.type_name) with
        | none => rfl
        | some c => rw [imContains, hg] at hp; cases hp
      obtain ⟨cn, c⟩ := p
      rw [List.cons_append, expandComponents, hget]
      exact ih fc (fun q hq => h q (List.mem_cons_of_mem _ hq))

/-- The extends phase preserves key uniqueness of the component map. -/
theorem applyExtends_nodup (sd : StoredDefinition) (l : List Extend)
    (fc out : ClassDefinition) (hnd : (imKeys fc.components).Nodup)
    (h : applyExtends sd l fc = .ok out) :
    (imKeys out.components).Nodup := by
  induction l generalizing fc with
  | nil =>
      rw [applyExtends] at h
      cases h
      exact hnd
  | cons e rest ih =>
      rw [applyExtends] at h
      cases hg : imGet sd.classes (nameToString e.comp) with
      | none => rw [hg] at h; cases h
      | some b =>
          rw [hg] at h
          refine ih _ ?_ h
          rw [ClassDefinition.components_setEquations_components,
            ClassDefinition.components_setComponents]
          exact imInsertAll_nodup _ _ hnd

/-- Each expansion step preserves key uniqueness of the component map. -/
theorem expandComponents_nodup (sd : StoredDefinition)
    (l : List (String × Component)) (fc : ClassDefinition)
    (hnd : (imKeys fc.components).Nodup) :
    (imKeys (expandComponents sd l fc).components).Nodup := by
  induction l generalizing fc with
  | nil => exact hnd
  | cons p rest ih =>
      obtain ⟨cn, c⟩ := p
      rw [expandComponents]
      cases hg : imGet sd.classes (nameToString c.type_name) with
      | none => exact ih fc hnd
      | some K =>
          apply ih
          rw [ClassDefinition.components_setComponents]
          apply imSwapRemove_nodup
          rw [ClassDefinition.components_setComponents]
          apply imInsertAll_nodup
          rw [subCompNameClass, ClassDefinition.components_mapEquationLists,
            ClassDefinition.components_setEquations_components]
          exact hnd

/-! Helper characterizations for the lowering folds. -/

theorem termTryFrom_eq_foldl (ast : TermAst) :
    termTryFrom ast =
      ast.term_list.foldl
        (fun lhs t => .Binary lhs (mulOpBinary t.mul_operator) t.factor)
        ast.factor := by
  rw [termTryFrom]
  cases ast.term_list <;> rfl

theorem logicalTermTryFrom_eq_foldl (ast : LogicalTermAst) :
    logicalTermTryFrom ast =
      ast.logical_term_list.foldl
        (fun lhs t => .Binary lhs (.And Token.zero) t) ast.logical_factor := by
  rw [logicalTermTryFrom]
  cases ast.logical_term_list <;> rfl

theorem logicalExpressionTryFrom_eq_foldl (ast : LogicalExpressionAst) :
    logicalExpressionTryFrom ast =
      ast.logical_expression_list.foldl
        (fun lhs t => .Binary lhs (.Or Token.zero) t) ast.logical_term := by
  rw [logicalExpressionTryFrom]
  cases ast.logical_expression_list <;> rfl

/-! The claim theorems. -/

/-- C2: the spec says a missing path segment (or a missing extends base
class) is reported as a `ClassNotFound` error value that bubbles to the
caller without abnormal termination; the code instead panics, via
`unwrap_or_else(panic!)` for path segments and `expect` for extends bases.
At the failing inputs below, the embedded `flatten` produces the explicit
panic markers rather than any returned error value. -/
theorem flatten_missing_class_panics :
    flatten { within := none, classes := [] } "A" =
      .error (.panicClassNotFound "A") ∧
    flatten
      { within := none,
        classes :=
          [("M", .mk (tokenText "M") false [] []
            [{ comp := { name := [tokenText "Missing"] } }] [] [] [] [] [])] }
      "M" = .error (.panicExtendNotFound "Missing") := by
  exact ⟨rfl, rfl⟩

/-- C4: the spec says a chained exponentiation `a^b^c` is rejected with a
`MalformedInput` error; the code instead returns a value, the single `^`
node of the first two operands, silently discarding the third.  The
embedded `Factor` lowering evaluated at a two-element repetition list shows
the returned value. -/
theorem factor_chain_returns_value (a b c : Expression) :
    factorTryFrom { primary := a, factor_list := [b, c] } =
      .ok (.Binary a (.Exp Token.zero) b) := rfl

/-- C5 counterexample: lowering a `for` statement does not signal an error;
it returns the `Statement::For` value with empty indices and equations. -/
theorem for_statement_returns_value :
    statementTryFrom .ForStatement = .ok (.For [] []) := rfl

/-- C5 amended: lowering a `for` statement in an algorithm section returns
`Statement::For` with empty indices and empty equations (the fields are
marked `// todo` in the source); the `if`, `when` and `while` statements do
signal `Unimplemented` with their construct names. -/
theorem statement_lowering_for_and_todos :
    statementTryFrom .ForStatement = .ok (.For [] []) ∧
    statementTryFrom .IfStatement = .error (.todoUnimplemented "if") ∧
    statementTryFrom .WhenStatement = .error (.todoUnimplemented "when") ∧
    statementTryFrom .WhileStatement = .error (.todoUnimplemented "while") :=
  ⟨rfl, rfl, rfl, rfl⟩

/-- C9: the lowering realizes the stated precedence and associativity:
`a + b * c` gives `Binary(+, a, Binary(*, b, c))`; `a * b + c` gives
`Binary(+, Binary(*, a, b), c)`; `-a + b` gives `Binary(+, Unary(-, a), b)`
with the sign wrapping only the first term; `a and b or c` gives
`Binary(or, Binary(and, a, b), c)`; and the multiplicative, additive, and
logical folds are left-associative: appending one more `op rhs` repetition
wraps the previous result as the left operand. -/
theorem operator_precedence_and_associativity :
    (∀ (a b c : Expression) (pt st : Token),
      arithTryFrom
        { sign := none, term := a,
          arithmetic_expression_list :=
            [{ add_operator := .Plus pt,
               term := termTryFrom
                 { factor := b, term_list := [{ mul_operator := .Star st, factor := c }] } }] } =
        .Binary a (.Add pt) (.Binary b (.Mul st) c)) ∧
    (∀ (a b c : Expression) (pt st : Token),
      arithTryFrom
        { sign := none,
          term := termTryFrom
            { factor := a, term_list := [{ mul_operator := .Star st, factor := b }] },
          arithmetic_expression_list := [{ add_operator := .Plus pt, term := c }] } =
        .Binary (.Binary a (.Mul st) b) (.Add pt) c) ∧
    (∀ (a b : Expression) (mt pt : Token),
      arithTryFrom
        { sign := some (.Minus mt), term := a,
          arithmetic_expression_list := [{ add_operator := .Plus pt, term := b }] } =
        .Binary (.Unary (.Minus mt) a) (.Add pt) b) ∧
    (∀ a b c : Expression,
      logicalExpressionTryFrom
        { logical_term := logicalTermTryFrom
            { logical_factor := a, logical_term_list := [b] },
          logical_expression_list := [c] } =
        .Binary (.Binary a (.And Token.zero) b) (.Or Token.zero) c) ∧
    (∀ (ast : TermAst) (op : MulOperator) (t : Expression),
      termTryFrom
        { factor := ast.factor,
          term_list := ast.term_list ++ [{ mul_operator := op, factor := t }] } =
        .Binary (termTryFrom ast) (mulOpBinary op) t) ∧
    (∀ (ast : ArithAst) (op : AddOperator) (t : Expression),
      arithTryFrom
        { sign := ast.sign, term := ast.term,
          arithmetic_expression_list :=
            ast.arithmetic_expression_list ++ [{ add_operator := op, term := t }] } =
        .Binary (arithTryFrom ast) (addOpBinary op) t) ∧
    (∀ (ast : LogicalTermAst) (t : Expression),
      logicalTermTryFrom
        { logical_factor := ast.logical_factor,
          logical_term_list := ast.logical_term_list ++ [t] } =
        .Binary (logicalTermTryFrom ast) (.And Token.zero) t) ∧
    (∀ (ast : LogicalExpressionAst) (t : Expression),
      logicalExpressionTryFrom
        { logical_term := ast.logical_term,
          logical_expression_list := ast.logical_expression_list ++ [t] } =
        .Binary (logicalExpressionTryFrom ast) (.Or Token.zero) t) := by
  refine ⟨fun a b c pt st => rfl, fun a b c pt st => rfl, fun a b mt pt => rfl,
    fun a b c => rfl, ?_, ?_, ?_, ?_⟩
  · intro ast op t
    rw [termTryFrom_eq_foldl, termTryFrom_eq_foldl]
    simp [List.foldl_append]
  · intro ast op t
    rw [arithTryFrom, arithTryFrom]
    simp [List.foldl_append]
  · intro ast t
    rw [logicalTermTryFrom_eq_foldl, logicalTermTryFrom_eq_foldl]
    simp [List.foldl_append]
  · intro ast t
    rw [logicalExpressionTryFrom_eq_foldl, logicalExpressionTryFrom_eq_foldl]
    simp [List.foldl_append]

/-- C3 counterexample: for a component declaration without a modification,
the spec's claimed defaults disagree with the code in two places.  A
`Bool`-typed component gets a `Bool` terminal whose token text is `0`, not
the terminal `false`; and a component with an empty type name falls through
to `Expression::Empty`, not to the `0.0` terminal. -/
theorem default_start_counterexample :
    lowerOneComponent .Empty .Empty .Empty { name := [tokenText "Bool"] }
        { ident := tokenText "b", modification := none, description := [] } =
      .ok { name := "b", type_name := { name := [tokenText "Bool"] },
            variability := .Empty, causality := .Empty, connection := .Empty,
            description := [],
            start := .Terminal .Bool (tokenText "0") } ∧
    ("0" : String) ≠ "false" ∧
    lowerOneComponent .Empty .Empty .Empty { name := [] }
        { ident := tokenText "e", modification := none, description := [] } =
      .ok { name := "e", type_name := { name := [] },
            variability := .Empty, causality := .Empty, connection := .Empty,
            description := [], start := .Empty } ∧
    Expression.Empty ≠ .Terminal .UnsignedReal (tokenText "0.0") :=
  ⟨rfl, by decide, rfl, fun h => Expression.noConfusion h⟩

/-- C3 amended: for a component declaration lowered without an `= expr`
modification, the default `start` is the `0.0` real terminal for type name
`Real`, the `0` integer terminal for `Integer`, the `Bool` terminal with
token text `0` for `Bool`, and `Expression::Empty` for every other type
name, the empty type name included. -/
theorem default_start_values (v : Variability) (ca : Causality)
    (co : Connection) (tn : Name) (c : ComponentDeclarationAst)
    (hmod : c.modification = none) :
    (lowerOneComponent v ca co tn c).map Component.start =
      .ok (if nameToString tn = "Real" then
             .Terminal .UnsignedReal (tokenText "0.0")
           else if nameToString tn = "Integer" then
             .Terminal .UnsignedInteger (tokenText "0")
           else if nameToString tn = "Bool" then
             .Terminal .Bool (tokenText "0")
           else .Empty) := by
  simp only [lowerOneComponent, hmod]
  rfl

/-- C3 witness: the amended default-start theorem applied to a `Real`
component declaration with no modification. -/
theorem default_start_values_witness :
    (lowerOneComponent .Empty .Empty .Empty { name := [tokenText "Real"] }
        { ident := tokenText "x", modification := none, description := [] }).map
      Component.start = .ok (.Terminal .UnsignedReal (tokenText "0.0")) := by
  rw [default_start_values .Empty .Empty .Empty { name := [tokenText "Real"] }
      { ident := tokenText "x", modification := none, description := [] } rfl]
  rfl

/-- C10: lowering a parenthesized output-expression primary indexes element
0 of the output expression list unconditionally after ruling out lists of
length greater than one; on a zero-element list the index is out of bounds
and no expression value is produced, while the one-element list yields its
expression. -/
theorem output_primary_needs_nonempty_list :
    primaryTryFrom (.OutputPrimary false []) = .error .panicIndexOutOfBounds ∧
    ∀ e : Expression, primaryTryFrom (.OutputPrimary false [e]) = .ok e :=
  ⟨rfl, fun _ => rfl⟩

/-! Concrete inputs used by witnesses and counterexamples. -/

/-- The `Real` type name. -/
def exReal : Name := { name := [tokenText "Real"] }

/-- A component with given name and type and all other fields defaulted. -/
def exComp (n : String) (tn : Name) : Component :=
  { name := n, type_name := tn, variability := .Empty, causality := .Empty,
    connection := .Empty, description := [], start := .Empty }

/-- A flat example class `M` with one `Real` component and one equation. -/
def exClsM : ClassDefinition :=
  .mk (tokenText "M") false [] [("x", exComp "x" exReal)] [] []
    [.Simple (.ComponentReference (.mk false [.mk (tokenText "x") none]))
      (.Terminal .UnsignedReal (tokenText "1.0"))] [] [] []

/-- A stored definition holding only `M`. -/
def exSdM : StoredDefinition := { within := none, classes := [("M", exClsM)] }

/-- C6: for a class with an empty extends list none of whose components is
typed by a stored class, `flatten` returns the class unchanged except that
the name token's text becomes the underscore-mangled path. -/
theorem flatten_flat_identity (sd : StoredDefinition) (model_class p0 : String)
    (rest : List String) (c0 cls : ClassDefinition)
    (hsplit : splitDot model_class = p0 :: rest)
    (h0 : imGet sd.classes p0 = some c0)
    (h1 : lookupNested c0 rest = some cls)
    (hext : cls.extendsList = [])
    (hcomp : ∀ p ∈ cls.components,
      imContains sd.classes (nameToString p.2.type_name) = false) :
    flatten sd model_class =
      .ok (cls.setNameText (joinParts "_" (p0 :: rest))) := by
  simp only [flatten, hsplit, h0, h1, ClassDefinition.extendsList_setNameText,
    hext, applyExtends]
  rw [ClassDefinition.components_setNameText,
    expandComponents_nop sd _ _ hcomp]

/-- C6 witness: the flat-identity theorem applied to the one-class stored
definition `exSdM`. -/
theorem flatten_flat_identity_witness :
    flatten exSdM "M" = .ok (exClsM.setNameText "M") := by
  have h := flatten_flat_identity exSdM "M" "M" [] exClsM exClsM rfl rfl rfl rfl
    (by
      intro p hp
      obtain rfl := List.mem_singleton.mp hp
      rfl)
  exact h

/-- Lookup after inserting a whole map whose keys are unique: each inserted
entry is found. -/
theorem imGet_imInsertAll_of_mem_nodup {α : Type} (m adds : IndexMap α)
    (k : String) (v : α) (hnd : (imKeys adds).Nodup) (hmem : (k, v) ∈ adds) :
    imGet (imInsertAll m adds) k = some v := by
  obtain ⟨l1, l2, heq⟩ := List.append_of_mem hmem
  subst heq
  apply imGet_imInsertAll_mem
  rw [imKeys_append, imKeys_cons] at hnd
  rcases List.nodup_append.mp hnd with ⟨-, h2, -⟩
  exact (List.nodup_cons.mp h2).1

/-- C7: for a class whose single extends entry resolves in the top-level
classes mapping, the flat output's component keys are the class's own keys
followed by the base's new keys in base order; a base component whose name
already exists overwrites the value in place; all base equations are
appended after the class's own.  And the base-class lookup consults the
top-level mapping only: a base class that exists solely as a nested class
of the target still panics as not found. -/
theorem extends_inheritance :
    (∀ (sd : StoredDefinition) (model_class p0 : String) (rest : List String)
        (c0 cls b : ClassDefinition) (ex : Extend),
      splitDot model_class = p0 :: rest →
      imGet sd.classes p0 = some c0 →
      lookupNested c0 rest = some cls →
      cls.extendsList = [ex] →
      imGet sd.classes (nameToString ex.comp) = some b →
      (imKeys b.components).Nodup →
      (∀ p ∈ cls.components,
        imContains sd.classes (nameToString p.2.type_name) = false) →
      ∃ out, flatten sd model_class = .ok out ∧
        imKeys out.components =
          imKeys cls.components ++
            (imKeys b.components).filter
              (fun k => !decide (k ∈ imKeys cls.components)) ∧
        (∀ k v, (k, v) ∈ b.components → imGet out.components k = some v) ∧
        (∀ k, k ∉ imKeys b.components →
          imGet out.components k = imGet cls.components k) ∧
        out.equations = cls.equations ++ b.equations) ∧
    (∀ (sd : StoredDefinition) (model_class p0 : String) (rest : List String)
        (c0 cls : ClassDefinition) (ex : Extend),
      splitDot model_class = p0 :: rest →
      imGet sd.classes p0 = some c0 →
      lookupNested c0 rest = some cls →
      cls.extendsList = [ex] →
      imGet sd.classes (nameToString ex.comp) = none →
      flatten sd model_class =
        .error (.panicExtendNotFound (nameToString ex.comp))) := by
  constructor
  · intro sd mc p0 rest c0 cls b ex hsplit h0 h1 hext hb hnd hcomp
    have hflat : flatten sd mc = .ok
        (((cls.setNameText (joinParts "_" (p0 :: rest))).setComponents
            (imInsertAll cls.components b.components)).setEquations
          (cls.equations ++ b.equations)) := by
      simp only [flatten, hsplit, h0, h1, ClassDefinition.extendsList_setNameText,
        hext, applyExtends, hb, ClassDefinition.components_setNameText,
        ClassDefinition.equations_setComponents,
        ClassDefinition.equations_setNameText]
      rw [expandComponents_nop sd _ _ hcomp]
    refine ⟨_, hflat, ?_, ?_, ?_, ?_⟩
    · rw [ClassDefinition.components_setEquations_components,
        ClassDefinition.components_setComponents]
      exact imKeys_imInsertAll _ _ hnd
    · intro k v hmem
      rw [ClassDefinition.components_setEquations_components,
        ClassDefinition.components_setComponents]
      exact imGet_imInsertAll_of_mem_nodup _ _ _ _ hnd hmem
    · intro k hk
      rw [ClassDefinition.components_setEquations_components,
        ClassDefinition.components_setComponents]
      exact imGet_imInsertAll_not_mem _ _ _ hk
    · rw [ClassDefinition.components_setEquations]
  · intro sd mc p0 rest c0 cls ex hsplit h0 h1 hext hnone
    simp only [flatten, hsplit, h0, h1, ClassDefinition.extendsList_setNameText,
      hext, applyExtends, hnone]

/-- Base class for the C7 witness, with a fresh key `q` and a duplicate
key `x`. -/
def exClsBase : ClassDefinition :=
  .mk (tokenText "Base") false []
    [("q", exComp "q" exReal), ("x", exComp "x" exReal)] [] []
    [.Simple (.ComponentReference (.mk false [.mk (tokenText "q") none]))
      (.Terminal .UnsignedReal (tokenText "2.0"))] [] [] []

/-- Extending class for the C7 witness. -/
def exClsM7 : ClassDefinition :=
  .mk (tokenText "M") false []
    [("x", exComp "x" exReal), ("y", exComp "y" exReal)]
    [{ comp := { name := [tokenText "Base"] } }] []
    [.Simple (.ComponentReference (.mk false [.mk (tokenText "y") none]))
      (.Terminal .UnsignedReal (tokenText "3.0"))] [] [] []

/-- Stored definition for the first C7 scenario. -/
def exSd7 : StoredDefinition :=
  { within := none, classes := [("Base", exClsBase), ("M", exClsM7)] }

/-- The nested-only base class of the second C7 scenario. -/
def exClsBase2 : ClassDefinition :=
  .mk (tokenText "Base2") false [] [] [] [] [] [] [] []

/-- A class extending `Base2`, which exists only in its own nested class
map and not at top level. -/
def exClsM2 : ClassDefinition :=
  .mk (tokenText "M2") false [("Base2", exClsBase2)] []
    [{ comp := { name := [tokenText "Base2"] } }] [] [] [] [] []

/-- Stored definition for the second C7 scenario. -/
def exSd7b : StoredDefinition := { within := none, classes := [("M2", exClsM2)] }

/-- C7 witness: both scenarios of the extends theorem at concrete inputs:
inheritance with overwrite-in-place on `exSd7`, and the nested-only base
class panic on `exSd7b`. -/
theorem extends_inheritance_witness :
    (∃ out, flatten exSd7 "M" = .ok out ∧
      imKeys out.components = ["x", "y", "q"] ∧
      out.equations = exClsM7.equations ++ exClsBase.equations) ∧
    flatten exSd7b "M2" = .error (.panicExtendNotFound "Base2") := by
  constructor
  · obtain ⟨out, hflat, hkeys, -, -, heqs⟩ :=
      extends_inheritance.1 exSd7 "M" "M" [] exClsM7 exClsM7 exClsBase
        { comp := { name := [tokenText "Base"] } } rfl rfl rfl rfl rfl
        (by decide)
        (by
          intro p hp
          rcases List.mem_cons.mp hp with h | h
          · obtain rfl := h; rfl
          · obtain rfl := List.mem_singleton.mp h; rfl)
    refine ⟨out, hflat, ?_, heqs⟩
    rw [hkeys]; rfl
  · exact extends_inheritance.2 exSd7b "M2" "M2" [] exClsM2 exClsM2
      { comp := { name := [tokenText "Base2"] } } rfl rfl rfl rfl rfl

/-- Inserting a fresh key appends the entry. -/
theorem imInsert_not_mem {α : Type} (m : IndexMap α) (k : String) (v : α)
    (h : k ∉ imKeys m) : imInsert m k v = m ++ [(k, v)] := by
  induction m with
  | nil => rfl
  | cons p rest ih =>
      obtain ⟨k', v'⟩ := p
      have h1 : k' ≠ k := fun hh => h (by simp [imKeys, hh])
      have h2 : k ∉ imKeys rest := fun hc => h (by simp [imKeys] at hc ⊢; tauto)
      simp [imInsert, h1, ih h2]

/-- Inserting a whole map of fresh, pairwise distinct keys appends it. -/
theorem imInsertAll_all_fresh {α : Type} (m adds : IndexMap α)
    (hnd : (imKeys adds).Nodup)
    (hfr : ∀ k ∈ imKeys adds, k ∉ imKeys m) :
    imInsertAll m adds = m ++ adds := by
  induction adds generalizing m with
  | nil => simp [imInsertAll]
  | cons p rest ih =>
      obtain ⟨k, v⟩ := p
      obtain ⟨hk, hnd'⟩ := nodup_cons_parts hnd
      have hfr' : ∀ k' ∈ imKeys rest, k' ∉ imKeys (m ++ [(k, v)]) := by
        intro k' hk' hc
        rw [imKeys_append] at hc
        rcases List.mem_append.mp hc with hm | hm
        · exact hfr k' (by rw [imKeys_cons]; exact List.mem_cons_of_mem _ hk') hm
        · have : k' = k := by simpa [imKeys] using hm
          exact hk (this ▸ hk')
      rw [imInsertAll_cons,
        imInsert_not_mem _ _ _ (hfr k (by rw [imKeys_cons]; exact List.mem_cons_self ..)),
        ih _ hnd' hfr', List.append_assoc, List.singleton_append]

/-- An empty user class `K`, expanded away during the C1 counterexample. -/
def exClsK : ClassDefinition := .mk (tokenText "K") false [] [] [] [] [] [] [] []

/-- Class `Top` with a `K`-typed component ahead of two `Real` components. -/
def exClsTop : ClassDefinition :=
  .mk (tokenText "Top") false []
    [("a", exComp "a" { name := [tokenText "K"] }),
     ("b", exComp "b" exReal), ("c", exComp "c" exReal)] [] [] [] [] [] []

/-- Stored definition for the C1 counterexample. -/
def exSdC1 : StoredDefinition :=
  { within := none, classes := [("K", exClsK), ("Top", exClsTop)] }

/-- C1 counterexample: removing the expanded component `a` from
`[a, b, c]` swaps the then-last entry `c` into `a`'s slot, so the
components `b` and `c`, which are not expanded away, come out in the order
`[c, b]` — not their input order `[b, c]`. -/
theorem components_order_counterexample :
    (flatten exSdC1 "Top").map (fun out => imKeys out.components) =
      .ok ["c", "b"] ∧
    (["c", "b"] : List String) ≠ ["b", "c"] :=
  ⟨rfl, by decide⟩

/-- Variant of the swap-removal decomposition for any non-empty tail. -/
theorem imSwapRemove_middle_ne {α : Type} (pre : IndexMap α) (k : String)
    (v : α) (rest : IndexMap α) (hk : k ∉ imKeys pre) (hne : rest ≠ []) :
    imSwapRemove (pre ++ (k, v) :: rest) k =
      pre ++ ((imLast rest).getD (k, v) :: rest.dropLast) := by
  cases rest with
  | nil => exact absurd rfl hne
  | cons q rest' => exact imSwapRemove_middle pre k v q rest' hk

/-- The last entry of an append with a non-empty right part. -/
theorem imLast_append_ne {α : Type} (l1 l2 : IndexMap α) (hne : l2 ≠ []) :
    imLast (l1 ++ l2) = imLast l2 := by
  cases l2 with
  | nil => exact absurd rfl hne
  | cons q rest => exact imLast_append_cons l1 q rest

/-- Dropping the last element of an append with a non-empty right part. -/
theorem dropLast_append_ne {α : Type} (l1 l2 : List (String × α))
    (hne : l2 ≠ []) : (l1 ++ l2).dropLast = l1 ++ l2.dropLast := by
  cases l2 with
  | nil => exact absurd rfl hne
  | cons q rest => exact dropLast_append_cons l1 q rest

/-- One expansion step, for a component whose type names the stored class
`K`: the continuation state carries exactly the swap-removed insertion of
the mangled sub-components. -/
theorem expand_step (sd : StoredDefinition) (cn : String) (c : Component)
    (post : List (String × Component)) (fc K : ClassDefinition)
    (hK : imGet sd.classes (nameToString c.type_name) = some K) :
    ∃ fc', expandComponents sd ((cn, c) :: post) fc =
        expandComponents sd post fc' ∧
      fc'.components = imSwapRemove
        (imInsertAll fc.components
          (K.components.map
            (fun p => (cn ++ "_" ++ p.1, p.2.setName (cn ++ "_" ++ p.1))))) cn := by
  refine ⟨((subCompNameClass cn
        (fc.setEquations (fc.equations ++
          K.equations.map (scopePushEq flattenGlobals [] cn)))).setComponents
      (imInsertAll (subCompNameClass cn
        (fc.setEquations (fc.equations ++
          K.equations.map (scopePushEq flattenGlobals [] cn)))).components
        (K.components.map
          (fun p => (cn ++ "_" ++ p.1, p.2.setName (cn ++ "_" ++ p.1)))))).setComponents
      (imSwapRemove (imInsertAll (subCompNameClass cn
        (fc.setEquations (fc.equations ++
          K.equations.map (scopePushEq flattenGlobals [] cn)))).components
        (K.components.map
          (fun p => (cn ++ "_" ++ p.1, p.2.setName (cn ++ "_" ++ p.1))))) cn),
    ?_, ?_⟩
  · simp only [expandComponents, hK]
    rw [ClassDefinition.components_setComponents]
  · simp only [ClassDefinition.components_setComponents, subCompNameClass,
      ClassDefinition.components_mapEquationLists,
      ClassDefinition.components_setEquations_components]

/-- C1 amended: the flat output's component order follows the looked-up
class's insertion order only up to the swap-removal of each expanded
component: sub-components are appended in insertion order at the end, and
the removal then moves the map's then-last entry — the last inserted
sub-component — into the removed component's position.  For a class
`pre ++ [(cn, c)] ++ post` whose single expanded component `(cn, c)`
expands to a non-empty sub-component list, the output component list is
`pre ++ [last mangled sub] ++ post ++ mangled subs without their last`. -/
theorem components_order_swap_remove (sd : StoredDefinition)
    (model_class p0 : String) (rest : List String) (c0 cls K : ClassDefinition)
    (cn : String) (c : Component) (pre post : List (String × Component))
    (hsplit : splitDot model_class = p0 :: rest)
    (h0 : imGet sd.classes p0 = some c0)
    (h1 : lookupNested c0 rest = some cls)
    (hext : cls.extendsList = [])
    (hcomps : cls.components = pre ++ (cn, c) :: post)
    (hnd : (imKeys cls.components).Nodup)
    (hothers : ∀ p ∈ pre ++ post,
      imContains sd.classes (nameToString p.2.type_name) = false)
    (hK : imGet sd.classes (nameToString c.type_name) = some K)
    (hndK : (imKeys K.components).Nodup)
    (hKne : K.components ≠ [])
    (hfresh : ∀ sn ∈ imKeys K.components,
      (cn ++ "_" ++ sn) ∉ imKeys cls.components) :
    ∃ out, flatten sd model_class = .ok out ∧
      out.components =
        pre ++
          ((imLast (K.components.map
              (fun p => (cn ++ "_" ++ p.1, p.2.setName (cn ++ "_" ++ p.1))))).getD
            (cn, c) ::
            (post ++
              (K.components.map
                (fun p => (cn ++ "_" ++ p.1,
                  p.2.setName (cn ++ "_" ++ p.1)))).dropLast)) := by
  have hflat0 : flatten sd model_class =
      .ok (expandComponents sd cls.components
        (cls.setNameText (joinParts "_" (p0 :: rest)))) := by
    simp only [flatten, hsplit, h0, h1, ClassDefinition.extendsList_setNameText,
      hext, applyExtends, ClassDefinition.components_setNameText]
  obtain ⟨fc', hstep, hcomp'⟩ := expand_step sd cn c post
    (cls.setNameText (joinParts "_" (p0 :: rest))) K hK
  have hflat : flatten sd model_class = .ok fc' := by
    rw [hflat0, hcomps, expandComponents_append_nop sd pre _ _
      (fun p hp => hothers p (List.mem_append.mpr (Or.inl hp))), hstep,
      expandComponents_nop sd post _
      (fun p hp => hothers p (List.mem_append.mpr (Or.inr hp)))]
  refine ⟨fc', hflat, ?_⟩
  rw [hcomp', ClassDefinition.components_setNameText]
  have hkeysE : imKeys (K.components.map
      (fun p => (cn ++ "_" ++ p.1, p.2.setName (cn ++ "_" ++ p.1)))) =
      (imKeys K.components).map (fun sn => cn ++ "_" ++ sn) := by
    rw [imKeys, imKeys, List.map_map, List.map_map]
    rfl
  have hndE : (imKeys (K.components.map
      (fun p => (cn ++ "_" ++ p.1, p.2.setName (cn ++ "_" ++ p.1))))).Nodup := by
    rw [hkeysE]
    exact List.Nodup.map (fun a b hab => mangled_injective_right cn a b hab) hndK
  have hfrE : ∀ k ∈ imKeys (K.components.map
      (fun p => (cn ++ "_" ++ p.1, p.2.setName (cn ++ "_" ++ p.1)))),
      k ∉ imKeys cls.components := by
    intro k hk
    rw [hkeysE] at hk
    obtain ⟨sn, hsn, rfl⟩ := List.mem_map.mp hk
    exact hfresh sn hsn
  have hEne : K.components.map
      (fun p => (cn ++ "_" ++ p.1, p.2.setName (cn ++ "_" ++ p.1))) ≠ [] := by
    intro hc
    exact hKne (List.map_eq_nil_iff.mp hc)
  rw [imInsertAll_all_fresh _ _ hndE hfrE, hcomps, List.append_assoc,
    List.cons_append]
  have hcnpre : cn ∉ imKeys pre := by
    rw [hcomps, imKeys_append, imKeys_cons] at hnd
    rcases List.nodup_append.mp hnd with ⟨-, -, h3⟩
    intro hc
    exact h3 hc (List.mem_cons_self ..)
  rw [imSwapRemove_middle_ne pre cn c _ hcnpre
      (by
        intro hc
        rcases List.append_eq_nil.mp hc with ⟨-, hc2⟩
        exact hEne hc2),
    imLast_append_ne _ _ hEne, dropLast_append_ne _ _ hEne]
/-- User class with two sub-components, for the C1 witness. -/
def exClsK2 : ClassDefinition :=
  .mk (tokenText "K2") false []
    [("s1", exComp "s1" exReal), ("s2", exComp "s2" exReal)] [] [] [] [] [] []

/-- Class with a `K2`-typed component between two `Real` components. -/
def exClsTop2 : ClassDefinition :=
  .mk (tokenText "Top2") false []
    [("b", exComp "b" exReal),
     ("a", exComp "a" { name := [tokenText "K2"] }),
     ("c", exComp "c" exReal)] [] [] [] [] [] []

/-- Stored definition for the C1 witness. -/
def exSdC1b : StoredDefinition :=
  { within := none, classes := [("K2", exClsK2), ("Top2", exClsTop2)] }

/-- C1 witness: the swap-removal order theorem at a concrete input; the
output component order is `[b, a_s2, c, a_s1]`. -/
theorem components_order_swap_remove_witness :
    ∃ out, flatten exSdC1b "Top2" = .ok out ∧
      imKeys out.components = ["b", "a_s2", "c", "a_s1"] := by
  obtain ⟨out, hflat, hcomp⟩ := components_order_swap_remove exSdC1b "Top2"
    "Top2" [] exClsTop2 exClsTop2 exClsK2 "a"
    (exComp "a" { name := [tokenText "K2"] })
    [("b", exComp "b" exReal)] [("c", exComp "c" exReal)]
    rfl rfl rfl rfl rfl (by decide)
    (by
      intro p hp
      rcases List.mem_cons.mp hp with h | h
      · obtain rfl := h; rfl
      · obtain rfl := List.mem_singleton.mp h; rfl)
    rfl (by decide) (List.cons_ne_nil _ _) (by decide)
  exact ⟨out, hflat, by rw [hcomp]; rfl⟩

/-- Token text of a terminal start expression (projection used to compare
start values in counterexamples). -/
def startText : Expression → String
  | .Terminal _ t => t.text
  | _ => ""

/-- A component with an explicit terminal start value. -/
def exCompStart (n : String) (tn : Name) (s : String) : Component :=
  { name := n, type_name := tn, variability := .Empty, causality := .Empty,
    connection := .Empty, description := [],
    start := .Terminal .UnsignedReal (tokenText s) }

/-- User class `KA` with one sub-component named `b_c` starting at `1.0`. -/
def exClsKA : ClassDefinition :=
  .mk (tokenText "KA") false []
    [("b_c", exCompStart "b_c" exReal "1.0")] [] [] [] [] [] []

/-- User class `KB` with one sub-component named `c` starting at `2.0`. -/
def exClsKB : ClassDefinition :=
  .mk (tokenText "KB") false []
    [("c", exCompStart "c" exReal "2.0")] [] [] [] [] [] []

/-- Class with two expanded components whose mangled sub-component names
collide: `a` of type `KA` yields `a_b_c`, and `a_b` of type `KB` also
yields `a_b_c`. -/
def exClsTop3 : ClassDefinition :=
  .mk (tokenText "Top3") false []
    [("a", exComp "a" { name := [tokenText "KA"] }),
     ("a_b", exComp "a_b" { name := [tokenText "KB"] })] [] [] [] [] [] []

/-- Stored definition for the C8 counterexample. -/
def exSdC8 : StoredDefinition :=
  { within := none,
    classes := [("KA", exClsKA), ("KB", exClsKB), ("Top3", exClsTop3)] }

/-- C8 counterexample: when two expansions mangle to the same name, the
later insertion overwrites the earlier sub-component's value in place, so
the output no longer contains a component equal to `KA`'s sub-component
`b_c` (start `1.0`) under the name `a_b_c`; the single surviving `a_b_c`
carries `KB`'s start `2.0`. -/
theorem subcomponent_fields_counterexample :
    (flatten exSdC8 "Top3").map
        (fun out => out.components.map (fun p => (p.1, startText p.2.start))) =
      .ok [("a_b_c", "2.0")] ∧
    ("2.0" : String) ≠ "1.0" :=
  ⟨rfl, by decide⟩

/-- Keys of the mangled sub-component map. -/
theorem imKeys_mangle (cn : String) (l : IndexMap Component) :
    imKeys (l.map (fun p => (cn ++ "_" ++ p.1, p.2.setName (cn ++ "_" ++ p.1)))) =
      (imKeys l).map (fun sn => cn ++ "_" ++ sn) := by
  rw [imKeys, imKeys, List.map_map, List.map_map]
  rfl

/-- The expansion loop splits over list append. -/
theorem expandComponents_append (sd : StoredDefinition)
    (l1 l2 : List (String × Component)) (fc : ClassDefinition) :
    expandComponents sd (l1 ++ l2) fc =
      expandComponents sd l2 (expandComponents sd l1 fc) := by
  induction l1 generalizing fc with
  | nil => rfl
  | cons p rest ih =>
      obtain ⟨cn, c⟩ := p
      rw [List.cons_append, expandComponents, expandComponents]
      cases hg : imGet sd.classes (nameToString c.type_name) with
      | none => exact ih fc
      | some K => exact ih _

/-- Processing components none of which removes a given key or inserts a
mangled name equal to it leaves the lookup of that key unchanged. -/
theorem expandComponents_preserves_get (sd : StoredDefinition)
    (l : List (String × Component)) (fc : ClassDefinition) (kk : String)
    (hnd : (imKeys fc.components).Nodup)
    (hne1 : ∀ p ∈ l, p.1 ≠ kk)
    (hne2 : ∀ p ∈ l, ∀ K', imGet sd.classes (nameToString p.2.type_name) = some K' →
      ∀ sn' ∈ imKeys K'.components, p.1 ++ "_" ++ sn' ≠ kk) :
    imGet (expandComponents sd l fc).components kk = imGet fc.components kk := by
  induction l generalizing fc with
  | nil => rfl
  | cons p rest ih =>
      obtain ⟨cn, c⟩ := p
      cases hg : imGet sd.classes (nameToString c.type_name) with
      | none =>
          rw [expandComponents, hg]
          exact ih fc hnd (fun q hq => hne1 q (List.mem_cons_of_mem _ hq))
            (fun q hq => hne2 q (List.mem_cons_of_mem _ hq))
      | some K =>
          obtain ⟨fc', hstep, hcomp'⟩ := expand_step sd cn c rest fc K hg
          rw [hstep]
          have hndIns : (imKeys (imInsertAll fc.components
              (K.components.map (fun p =>
                (cn ++ "_" ++ p.1, p.2.setName (cn ++ "_" ++ p.1)))))).Nodup :=
            imInsertAll_nodup _ _ hnd
          have hnd' : (imKeys fc'.components).Nodup := by
            rw [hcomp']
            exact imSwapRemove_nodup _ _ hndIns
          have hget : imGet fc'.components kk = imGet fc.components kk := by
            rw [hcomp',
              imGet_imSwapRemove_ne _ _ _ hndIns
                (fun hh => hne1 (cn, c) (List.mem_cons_self ..) hh.symm),
              imGet_imInsertAll_not_mem]
            intro hc
            rw [imKeys_mangle] at hc
            obtain ⟨sn', hsn', hmangle⟩ := List.mem_map.mp hc
            exact hne2 (cn, c) (List.mem_cons_self ..) K hg sn' hsn' hmangle
          rw [ih fc' hnd' (fun q hq => hne1 q (List.mem_cons_of_mem _ hq))
            (fun q hq => hne2 q (List.mem_cons_of_mem _ hq)), hget]

/-- C8 amended: for a component `(cn, c)` of the looked-up class whose type
names the stored class `K`, and a sub-component `(sn, s)` of `K`, the flat
output maps the mangled name `cn_sn` to `s` with only its `name` field
replaced by `cn_sn` — provided the mangled name collides neither with a
later expansion's mangled names nor with a component name of the looked-up
class (the counterexample shows the conclusion fails without this
freshness condition). -/
theorem subcomponent_insertion (sd : StoredDefinition)
    (model_class p0 : String) (rest : List String)
    (c0 cls K fcE : ClassDefinition) (cn sn : String) (c : Component)
    (s : Component) (pre post : List (String × Component))
    (hsplit : splitDot model_class = p0 :: rest)
    (h0 : imGet sd.classes p0 = some c0)
    (h1 : lookupNested c0 rest = some cls)
    (hcomps : cls.components = pre ++ (cn, c) :: post)
    (hnd : (imKeys cls.components).Nodup)
    (hextok : applyExtends sd cls.extendsList
      (cls.setNameText (joinParts "_" (p0 :: rest))) = .ok fcE)
    (hK : imGet sd.classes (nameToString c.type_name) = some K)
    (hndK : (imKeys K.components).Nodup)
    (hmemK : (sn, s) ∈ K.components)
    (hfresh1 : ∀ p ∈ post, p.1 ≠ cn ++ "_" ++ sn)
    (hfresh2 : ∀ p ∈ post, ∀ K',
      imGet sd.classes (nameToString p.2.type_name) = some K' →
      ∀ sn' ∈ imKeys K'.components, p.1 ++ "_" ++ sn' ≠ cn ++ "_" ++ sn) :
    ∃ out, flatten sd model_class = .ok out ∧
      imGet out.components (cn ++ "_" ++ sn) =
        some (s.setName (cn ++ "_" ++ sn)) := by
  have hflat0 : flatten sd model_class =
      .ok (expandComponents sd cls.components fcE) := by
    simp only [flatten, hsplit, h0, h1, ClassDefinition.extendsList_setNameText,
      ClassDefinition.components_setNameText, hextok]
  have hndE : (imKeys fcE.components).Nodup :=
    applyExtends_nodup sd cls.extendsList _ _
      (by rw [ClassDefinition.components_setNameText]; exact hnd) hextok
  rw [hcomps] at hflat0
  rw [expandComponents_append sd pre ((cn, c) :: post) fcE] at hflat0
  have hnd1 : (imKeys (expandComponents sd pre fcE).components).Nodup :=
    expandComponents_nodup sd pre fcE hndE
  obtain ⟨fc', hstep, hcomp'⟩ :=
    expand_step sd cn c post (expandComponents sd pre fcE) K hK
  rw [hstep] at hflat0
  have hndIns : (imKeys (imInsertAll (expandComponents sd pre fcE).components
      (K.components.map (fun p =>
        (cn ++ "_" ++ p.1, p.2.setName (cn ++ "_" ++ p.1)))))).Nodup :=
    imInsertAll_nodup _ _ hnd1
  have hnd2 : (imKeys fc'.components).Nodup := by
    rw [hcomp']
    exact imSwapRemove_nodup _ _ hndIns
  have hgetstep : imGet fc'.components (cn ++ "_" ++ sn) =
      some (s.setName (cn ++ "_" ++ sn)) := by
    rw [hcomp',
      imGet_imSwapRemove_ne _ _ _ hndIns
        (fun hh => ne_self_append_sep cn sn hh.symm)]
    apply imGet_imInsertAll_of_mem_nodup
    · rw [imKeys_mangle]
      exact List.Nodup.map
        (fun a b hab => mangled_injective_right cn a b hab) hndK
    · exact List.mem_map.mpr ⟨(sn, s), hmemK, rfl⟩
  refine ⟨_, hflat0, ?_⟩
  rw [expandComponents_preserves_get sd post fc' _ hnd2 hfresh1 hfresh2, hgetstep]

/-- C8 witness: the sub-component insertion theorem on `exSdC1b`: the
expansion of `a : K2` puts `K2`'s sub-component `s1`, renamed `a_s1`, into
the flattened `Top2`. -/
theorem subcomponent_insertion_witness :
    ∃ out, flatten exSdC1b "Top2" = .ok out ∧
      imGet out.components "a_s1" =
        some ((exComp "s1" exReal).setName "a_s1") := by
  have h := subcomponent_insertion exSdC1b "Top2" "Top2" [] exClsTop2
    exClsTop2 exClsK2 (exClsTop2.setNameText "Top2") "a" "s1"
    (exComp "a" { name := [tokenText "K2"] }) (exComp "s1" exReal)
    [("b", exComp "b" exReal)] [("c", exComp "c" exReal)]
    rfl rfl rfl rfl (by decide) rfl rfl (by decide)
    (List.mem_cons_self ..)
    (by
      intro p hp
      obtain rfl := List.mem_singleton.mp hp
      decide)
    (by
      intro p hp K' hK'
      obtain rfl := List.mem_singleton.mp hp
      exact Option.noConfusion hK')
  exact h

end Rumoca
